import Mathlib

/-!
# CR-Web-Map — walkway network engine: shallow embedding and verification

This file embeds the core routing/editing logic of the CR-Web-Map repository
(`src/public/js/client.js`, `src/public/js/admin.js`, `src/unnamed/part_001`,
`src/walkwayStore.js`) in Lean and proves/refutes the frozen claims about it.

Modelling conventions:
* JavaScript numbers are modelled exactly over `ℚ`; where JS `NaN`/`Infinity`
  semantics is observable (the Catmull-Rom resampler's `0/0` ratios) a dedicated
  `JNum` type with JS arithmetic rules is used.
* The external `turf`/`Leaflet` metric functions (`turf.distance`,
  `mapInst.distance`) are great-circle distances over a small campus extent; the
  spec (§2, §4.1) models them as a planar distance with a fixed local scale.
  They enter the embedding as explicit function parameters (`w` for
  `turf.distance`, `wm` for the metre-valued `mapInst.distance`), so every
  theorem holds for any metric the caller supplies, with the concrete values a
  claim depends on stated as hypotheses.
* `mapInst.project`/`unproject` (Web-Mercator pixel projection) are modelled as
  the identity on coordinates, per the spec's locally-flat treatment (§3).
* `turf.lineIntersect`, `turf.lineSplit`, `turf.booleanPointInPolygon` and
  `turf.booleanWithin` are external-library primitives; they are modelled from
  the spec's Geometry Kernel description (§4.1), exactly over `ℚ`.
-/

set_option maxHeartbeats 3200000

namespace CRMap

/-- A coordinate `[lng, lat]`, modelled exactly over `ℚ`. -/
abbrev Point : Type := ℚ × ℚ

/-- A distance function standing for an external metric
(`turf.distance` / `mapInst.distance`). -/
abbrev DistFn : Type := Point → Point → ℚ

/-- One raw GeoJSON feature as consumed by `buildWalkwayGraph`
(client.js:297-309): only the geometry type and the coordinate list matter
for the graph build (the id assigned there is unused downstream). -/
structure RawLine where
  isLine : Bool
  coords : List Point
deriving DecidableEq, Repr

/-- client.js:301-309: keep LineString features with at least 2 coordinates. -/
def extractWalkways (raw : List RawLine) : List (List Point) :=
  raw.filterMap fun f => if f.isLine ∧ 2 ≤ f.coords.length then some f.coords else none

/-- client.js:322-332 `computeT`: clamped parametric position of `p` on segment
`a b`, with the `vv || 1e-12` zero-denominator guard. -/
def computeT (a b p : Point) : ℚ :=
  let vx := b.1 - a.1
  let vy := b.2 - a.2
  let wx := p.1 - a.1
  let wy := p.2 - a.2
  let vv0 := vx * vx + vy * vy
  let vv := if vv0 = 0 then 1 / 10 ^ 12 else vv0
  let t := (vx * wx + vy * wy) / vv
  if t < 0 then 0 else if t > 1 then 1 else t

/-- Modelled from the spec: `turf.lineIntersect` of two 2-point segments
(an external library call at client.js:353), per §4.1 `segmentIntersection`:
at most one proper intersection point, collinear overlaps treated as no
intersection. -/
def segInter (A B C D : Point) : Option Point :=
  let d := (B.1 - A.1) * (D.2 - C.2) - (B.2 - A.2) * (D.1 - C.1)
  if d = 0 then none
  else
    let t := ((C.1 - A.1) * (D.2 - C.2) - (C.2 - A.2) * (D.1 - C.1)) / d
    let u := ((C.1 - A.1) * (B.2 - A.2) - (C.2 - A.2) * (B.1 - A.1)) / d
    if 0 ≤ t ∧ t ≤ 1 ∧ 0 ≤ u ∧ u ≤ 1 then
      some (A.1 + t * (B.1 - A.1), A.2 + t * (B.2 - A.2))
    else none

/-- Intersection entries recorded for segment `si` of walkway `wi`
(client.js:311-369): the source's pairwise `i < j` loop pushes every crossing
with a segment of every other walkway onto both segments' lists; modelled here
per segment directly (each entry carries the crossing point and its clamped
parameter along the segment). -/
def segIntersections (ws : List (List Point)) (wi si : ℕ) : List (Point × ℚ) :=
  let ci := ws.getD wi []
  let A := ci.getD si (0, 0)
  let B := ci.getD (si + 1) (0, 0)
  ((List.range ws.length).filter fun j => j ≠ wi).flatMap fun j =>
    let cj := ws.getD j []
    (List.range (cj.length - 1)).filterMap fun sj =>
      let C := cj.getD sj (0, 0)
      let D := cj.getD (sj + 1) (0, 0)
      (segInter A B C D).map fun p => (p, computeT A B p)

/-- Stable insertion step for `sortByT`. -/
def insertByT (x : Point × ℚ) : List (Point × ℚ) → List (Point × ℚ)
  | [] => [x]
  | y :: ys => if x.2 ≤ y.2 then x :: y :: ys else y :: insertByT x ys

/-- client.js:384 `list.sort((a, b) => a.t - b.t)`: a stable ascending sort by
the parameter `t` (JS `Array.sort` is stable). -/
def sortByT : List (Point × ℚ) → List (Point × ℚ)
  | [] => []
  | x :: xs => insertByT x (sortByT xs)

/-- client.js:375-394, one segment of the refinement pass: push the segment's
start vertex, then the segment's intersection points sorted by parameter,
suppressing points within `1e-10` (per axis) of the previously pushed vertex. -/
def refineSeg (out0 : List Point) (A : Point) (inters : List (Point × ℚ)) : List Point :=
  let out := out0 ++ [A]
  let sorted := sortByT inters
  sorted.foldl (fun acc item =>
    match acc.getLast? with
    | some last =>
        if 1 / 10 ^ 10 < |item.1.1 - last.1| ∨ 1 / 10 ^ 10 < |item.1.2 - last.2| then
          acc ++ [item.1]
        else acc
    | none => acc) out

/-- client.js:371-398: refined vertex sequence of walkway `wi` — every segment's
start, its sorted intersection points, and finally the walkway's last vertex. -/
def refineWalkway (ws : List (List Point)) (wi : ℕ) : List Point :=
  let src := ws.getD wi []
  let out := (List.range (src.length - 1)).foldl
    (fun out si => refineSeg out (src.getD si (0, 0)) (segIntersections ws wi si)) []
  out ++ [src.getD (src.length - 1) (0, 0)]

/-- The refinement pass applied to every walkway. -/
def refineAll (ws : List (List Point)) : List (List Point) :=
  (List.range ws.length).map (refineWalkway ws)

/-- One adjacency entry `{to, weight}` (client.js:430); the source field `to`
is a Lean keyword and is rendered `toIdx`. -/
structure Entry where
  toIdx : ℕ
  weight : ℚ
deriving DecidableEq, Repr

/-- One geometric segment record `{a, b, coordA, coordB}` (client.js:433-438). -/
structure Seg where
  a : ℕ
  b : ℕ
  coordA : Point
  coordB : Point
deriving DecidableEq, Repr

/-- The routing graph (client.js:445): node array, adjacency (a list indexed by
node id, modelling the `Map` whose keys are exactly `0..nodes.length-1`), and
the segment list. -/
structure Graph where
  nodes : List Point
  adj : List (List Entry)
  segments : List Seg
deriving DecidableEq, Repr

/-- `graph.adjacency.get(u) || []` (client.js:593). -/
def adjGet (g : Graph) (u : ℕ) : List Entry :=
  g.adj.getD u []

/-- `Map.set` on the adjacency list: in-range indices are overwritten; a brand
new key (only ever `nodes.length` in the source) is appended, padding any gap
with empty lists so list position keeps matching the node id. -/
def adjSet (adj : List (List Entry)) (i : ℕ) (l : List Entry) : List (List Entry) :=
  if i < adj.length then adj.set i l
  else adj ++ List.replicate (i - adj.length) [] ++ [l]

/-- `adjacency.get(i).push(e)` (client.js:430-431). -/
def pushAdj (adj : List (List Entry)) (i : ℕ) (e : Entry) : List (List Entry) :=
  adj.set i (adj.getD i [] ++ [e])

/-- The symmetric pair of adjacency pushes (client.js:429-431, 457-459,
548-551): an `ia → ib` entry and its `ib → ia` mirror, same weight. -/
def pushPair (adj : List (List Entry)) (ia ib : ℕ) (q : ℚ) : List (List Entry) :=
  pushAdj (pushAdj adj ia ⟨ib, q⟩) ib ⟨ia, q⟩

/-- client.js:539-543: drop the direct `ia ↔ ib` adjacency entries (both
directions) before splicing a new node between `ia` and `ib`. -/
def filterPair (adj : List (List Entry)) (ia ib : ℕ) : List (List Entry) :=
  let adj1 := adjSet adj ia ((adj.getD ia []).filter fun e => e.toIdx ≠ ib)
  adjSet adj1 ib ((adj1.getD ib []).filter fun e => e.toIdx ≠ ia)

/-- client.js:406-415 `getNodeIndex`: reuse the index of an exactly-equal
coordinate (the source's `"lng,lat"` string key agrees with `Point` equality),
otherwise append a new node with an empty adjacency list. -/
def getNodeIndex (st : Graph) (c : Point) : Graph × ℕ :=
  match st.nodes.findIdx? (fun x => x = c) with
  | some i => (st, i)
  | none => ({ st with nodes := st.nodes ++ [c], adj := st.adj ++ [[]] }, st.nodes.length)

/-- One step of client.js:421 `coords.map(getNodeIndex)`: thread the graph and
collect the next node index. -/
def icStep (acc : Graph × List ℕ) (c : Point) : Graph × List ℕ :=
  let r := getNodeIndex acc.1 c
  (r.1, acc.2 ++ [r.2])

/-- client.js:421 `coords.map(getNodeIndex)` with its node-allocating effect. -/
def indexCoords (st : Graph) (coords : List Point) : Graph × List ℕ :=
  coords.foldl icStep (st, [])

/-- client.js:423-439, one loop iteration: push the symmetric adjacency pair and
the segment record for consecutive refined vertices. -/
def addEdge (w : DistFn) (st : Graph) (ia ib : ℕ) (A B : Point) : Graph :=
  { st with
    adj := pushPair st.adj ia ib (w A B),
    segments := st.segments ++ [⟨ia, ib, A, B⟩] }

/-- client.js:423-439, the edge loop over consecutive (index, coordinate) pairs. -/
def addEdges (w : DistFn) : Graph → List (ℕ × Point) → Graph
  | st, a :: b :: rest => addEdges w (addEdge w st a.1 b.1 a.2 b.2) (b :: rest)
  | st, _ => st

/-- client.js:417-440: process one refined walkway — skip if fewer than 2
vertices, otherwise allocate node indices then add all consecutive edges. -/
def addWalkway (w : DistFn) (st : Graph) (coords : List Point) : Graph :=
  if coords.length < 2 then st
  else
    let r := indexCoords st coords
    addEdges w r.1 (r.2.zip coords)

/-- client.js:451-464 `connectNearbyNodes`, one `(i, j)` pair: bridge nodes
within `tol` metres by a symmetric pair of edges of weight `d/1000`. -/
def connectPair (wm : DistFn) (tol : ℚ) (st : Graph) (i j : ℕ) : Graph :=
  let a := st.nodes.getD i (0, 0)
  let b := st.nodes.getD j (0, 0)
  let d := wm a b
  if d ≤ tol then { st with adj := pushPair st.adj i j (d / 1000) }
  else st

/-- client.js:451-464: the `i < j` double loop of the consolidation pass. -/
def connectNearbyNodes (wm : DistFn) (tol : ℚ) (st : Graph) : Graph :=
  let n := st.nodes.length
  (List.range n).foldl (fun acc i =>
    (List.range' (i + 1) (n - (i + 1))).foldl (fun acc2 j => connectPair wm tol acc2 i j) acc) st

/-- client.js:297-446 `buildWalkwayGraph`: extract LineString walkways, split
them at mutual intersections, build nodes/adjacency/segments, then run the
2-metre consolidation pass. `w` models `turf.distance` (edge weights), `wm`
models `mapInst.distance` (metres, consolidation pass). -/
def buildWalkwayGraph (w wm : DistFn) (raw : List RawLine) : Graph :=
  let ws := refineAll (extractWalkways raw)
  let st := ws.foldl (addWalkway w) ⟨[], [], []⟩
  connectNearbyNodes wm 2 st

/-! ## Dijkstra (client.js:572-615) -/

/-- A JS number that may be `Infinity`: `none` models `Infinity`,
`some d` a finite value. -/
abbrev JDist : Type := Option ℚ

/-- The strict `<` of JS numbers restricted to finite-or-`Infinity` values
(`Infinity < Infinity` is false). -/
def infLT : JDist → JDist → Prop
  | some a, some b => a < b
  | some _, none => True
  | none, _ => False

instance : ∀ x y : JDist, Decidable (infLT x y)
  | some a, some b => inferInstanceAs (Decidable (a < b))
  | some _, none => .isTrue trivial
  | none, some _ => .isFalse not_false
  | none, none => .isFalse not_false

/-- `x + w` on finite-or-`Infinity` values (`Infinity + w = Infinity`). -/
def infAdd (x : JDist) (v : ℚ) : JDist :=
  x.map (· + v)

/-- The mutable state of `dijkstraShortestPath`: `dist`, `prev`, `visited`
arrays of length `nodes.length`, modelled as total functions (indices ≥ n are
never touched). -/
structure DState where
  dist : ℕ → JDist
  prev : ℕ → Option ℕ
  visited : ℕ → Bool

/-- client.js:581-588: the scan for the unvisited node of least finite
distance (`best` starts at `Infinity`, strict `<` keeps the first minimum). -/
def selectMin (n : ℕ) (s : DState) : Option ℕ × JDist :=
  (List.range n).foldl (fun acc i =>
    if s.visited i = false ∧ infLT (s.dist i) acc.2 then (some i, s.dist i) else acc)
    (none, none)

/-- client.js:594-601, one relaxation: `alt = dist[u] + w`; update `dist`/`prev`
of the edge target when strictly smaller. -/
def relaxEdge (u : ℕ) (s : DState) (e : Entry) : DState :=
  let alt := infAdd (s.dist u) e.weight
  if infLT alt (s.dist e.toIdx) then
    { s with
      dist := fun i => if i = e.toIdx then alt else s.dist i,
      prev := fun i => if i = e.toIdx then some u else s.prev i }
  else s

/-- client.js:593-601: relax every edge out of `u`. -/
def relaxAll (g : Graph) (u : ℕ) (s : DState) : DState :=
  (adjGet g u).foldl (relaxEdge u) s

/-- client.js:592 `visited[u] = true`. -/
def markVisited (u : ℕ) (s : DState) : DState :=
  { s with visited := fun i => if i = u then true else s.visited i }

/-- client.js:580-602, the `while(true)` loop with explicit fuel: stop when no
unvisited node has finite distance, or when the end node is selected (before
visiting it); otherwise visit and relax. Each non-breaking iteration marks a
new node visited, so fuel `n+1` never runs out (proved below). -/
def dijkstraLoop (g : Graph) (endIdx : ℕ) : ℕ → DState → DState
  | 0, s => s
  | fuel + 1, s =>
    match (selectMin g.nodes.length s).1 with
    | none => s
    | some u =>
      if u = endIdx then s
      else dijkstraLoop g endIdx fuel (relaxAll g u (markVisited u s))

/-- client.js:606-611: follow `prev` links from `cur` (with fuel; the JS loop
runs until `null`). -/
def walkPrev (prev : ℕ → Option ℕ) : ℕ → ℕ → List ℕ
  | 0, _ => []
  | fuel + 1, cur =>
    cur :: (match prev cur with
            | none => []
            | some p => walkPrev prev fuel p)

/-- client.js:574-578: the initial state — `dist[start] = 0`, every other
distance `Infinity`, all `prev` null, nothing visited. -/
def dInit (startIdx : ℕ) : DState :=
  ⟨fun i => if i = startIdx then some 0 else none, fun _ => none, fun _ => false⟩

/-- client.js:572-615 `dijkstraShortestPath`: run the loop from
`dist[start] = 0`; `null` when `dist[end]` is still `Infinity`, otherwise the
distance and the reversed predecessor walk. -/
def dijkstraShortestPath (g : Graph) (startIdx endIdx : ℕ) : Option (ℚ × List ℕ) :=
  let n := g.nodes.length
  let s := dijkstraLoop g endIdx (n + 1) (dInit startIdx)
  match s.dist endIdx with
  | none => none
  | some d => some (d, (walkPrev s.prev (n + 1) endIdx).reverse)

/-! ## Point insertion (client.js:473-563) -/

/-- The tracked best projection (client.js:479-512). -/
structure SnapBest where
  seg : Seg
  segIndex : ℕ
  snapped : Point
  dist : ℚ
deriving DecidableEq, Repr

/-- client.js:489-501: clamped projection of `target` onto a segment (pixel
projection modelled as the identity; same `t` formula as `computeT`, including
the `1e-12` guard). -/
def projectOnSeg (A B target : Point) : Point :=
  let t := computeT A B target
  (A.1 + t * (B.1 - A.1), A.2 + t * (B.2 - A.2))

/-- client.js:481-512: scan all segments tracking the globally closest
projection (strict `<`, so the first minimum wins ties). -/
def bestSnap (wm : DistFn) (target : Point) (segs : List Seg) : Option SnapBest :=
  segs.enum.foldl (fun best x =>
    let proj := projectOnSeg x.2.coordA x.2.coordB target
    let d := wm target proj
    match best with
    | none => some ⟨x.2, x.1, proj, d⟩
    | some b => if d < b.dist then some ⟨x.2, x.1, proj, d⟩ else some b) none

/-- client.js:522-525 `almostEqual`: per-axis `1e-10` coincidence test. -/
def almostEqual (c1 c2 : Point) : Bool :=
  decide (|c1.1 - c2.1| < 1 / 10 ^ 10 ∧ |c1.2 - c2.2| < 1 / 10 ^ 10)

/-- The result record of `insertPointIntoGraph` (client.js:526-562). -/
structure InsertRes where
  nodeIndex : ℕ
  snapped : Point
  distMeters : ℚ
deriving DecidableEq, Repr

/-- client.js:529-562, the structural branch of `insertPointIntoGraph`: create
the new node, register an empty adjacency list for it (client.js:536), remove
the direct `a ↔ b` entries, push the two symmetric edge pairs `a ↔ new` and
`new ↔ b`, and replace the split segment by its two halves. -/
def insertCore (w : DistFn) (g : Graph) (best : SnapBest) : Graph :=
  let A := best.seg.coordA
  let B := best.seg.coordB
  let ia := best.seg.a
  let ib := best.seg.b
  let snapped := best.snapped
  let newIndex := g.nodes.length
  let adj0 := adjSet g.adj newIndex []
  let adj2 := filterPair adj0 ia ib
  let adj3 := pushPair adj2 ia newIndex (w A snapped)
  let adj4 := pushPair adj3 ib newIndex (w snapped B)
  let segs' := g.segments.eraseIdx best.segIndex ++
    [⟨ia, newIndex, A, snapped⟩, ⟨newIndex, ib, snapped, B⟩]
  ⟨g.nodes ++ [snapped], adj4, segs'⟩

/-- client.js:473-563 `insertPointIntoGraph`. The source mutates `graph`; the
embedding returns the result together with the updated graph. `maxSnapMeters`
keeps the JS truthiness of `maxSnapMeters && best.dist > maxSnapMeters`
(`0` disables the cutoff). -/
def insertPointIntoGraph (wm w : DistFn) (g : Graph) (coord : Point)
    (maxSnapMeters : ℚ) : Option InsertRes × Graph :=
  if g.segments = [] then (none, g) else
  match bestSnap wm coord g.segments with
  | none => (none, g)
  | some best =>
    if maxSnapMeters ≠ 0 ∧ maxSnapMeters < best.dist then (none, g)
    else
      let A := best.seg.coordA
      let B := best.seg.coordB
      let ia := best.seg.a
      let ib := best.seg.b
      let snapped := best.snapped
      if almostEqual snapped A then (some ⟨ia, A, best.dist⟩, g)
      else if almostEqual snapped B then (some ⟨ib, B, best.dist⟩, g)
      else (some ⟨g.nodes.length, snapped, best.dist⟩, insertCore w g best)

/-! ## JS numbers with `NaN`/`Infinity` (for validation and the Catmull-Rom
resampler, where `0/0` and `x/0` are observable) -/

/-- A JS number: a finite rational, `NaN`, `Infinity` or `-Infinity`. -/
inductive JNum where
  | fin : ℚ → JNum
  | nan : JNum
  | pinf : JNum
  | ninf : JNum
deriving DecidableEq, Repr

/-- JS `Number.isFinite`. -/
def jIsFinite : JNum → Bool
  | .fin _ => true
  | _ => false

/-- JS negation. -/
def jneg : JNum → JNum
  | .fin q => .fin (-q)
  | .nan => .nan
  | .pinf => .ninf
  | .ninf => .pinf

/-- JS addition (`Infinity + (-Infinity) = NaN`, `NaN` absorbs). -/
def jadd : JNum → JNum → JNum
  | .fin a, .fin b => .fin (a + b)
  | .nan, _ => .nan
  | _, .nan => .nan
  | .pinf, .ninf => .nan
  | .ninf, .pinf => .nan
  | .pinf, _ => .pinf
  | _, .pinf => .pinf
  | .ninf, _ => .ninf
  | _, .ninf => .ninf

/-- JS subtraction. -/
def jsub (x y : JNum) : JNum := jadd x (jneg y)

/-- JS multiplication (`0 * Infinity = NaN`, `NaN` absorbs). -/
def jmul : JNum → JNum → JNum
  | .fin a, .fin b => .fin (a * b)
  | .nan, _ => .nan
  | _, .nan => .nan
  | .pinf, .fin b => if b = 0 then .nan else if 0 < b then .pinf else .ninf
  | .ninf, .fin b => if b = 0 then .nan else if 0 < b then .ninf else .pinf
  | .fin a, .pinf => if a = 0 then .nan else if 0 < a then .pinf else .ninf
  | .fin a, .ninf => if a = 0 then .nan else if 0 < a then .ninf else .pinf
  | .pinf, .pinf => .pinf
  | .pinf, .ninf => .ninf
  | .ninf, .pinf => .ninf
  | .ninf, .ninf => .pinf

/-- JS division of two finite values (`0/0 = NaN`, `±x/0 = ±Infinity`). -/
def jdivQ (a b : ℚ) : JNum :=
  if b = 0 then (if a = 0 then .nan else if 0 < a then .pinf else .ninf)
  else .fin (a / b)

/-- JS `w || 0`: `NaN` (and `0` itself) are falsy and give `0`. -/
def jor0 : JNum → JNum
  | .nan => .fin 0
  | .fin q => .fin q
  | x => x

/-- JS `Math.min(1, x)` (`NaN` propagates). -/
def jmin1 : JNum → JNum
  | .nan => .nan
  | .pinf => .fin 1
  | .ninf => .ninf
  | .fin q => .fin (min 1 q)

/-- JS `Math.max(0, x)` (`NaN` propagates). -/
def jmax0 : JNum → JNum
  | .nan => .nan
  | .pinf => .pinf
  | .ninf => .fin 0
  | .fin q => .fin (max 0 q)

/-- A point whose components may be non-finite. -/
abbrev JPoint : Type := JNum × JNum

/-- A finite point viewed as a `JPoint`. -/
def liftP (p : Point) : JPoint := (.fin p.1, .fin p.2)

/-! ## Catmull-Rom resampling (admin.js:776-826, duplicated at part_001) -/

/-- admin.js:822-826 `lerpPoint`: `ww = Math.max(0, Math.min(1, 1 - (w || 0)))`
then `a + (b - a) * ww` per axis, in JS arithmetic. The `a ? a[0] : 0`
null-guards never trigger (every control point exists). -/
def lerpPoint (a b : JPoint) (w : JNum) : JPoint :=
  let ww := jmax0 (jmin1 (jsub (.fin 1) (jor0 w)))
  (jadd a.1 (jmul (jsub b.1 a.1) ww), jadd a.2 (jmul (jsub b.2 a.2) ww))

/-- admin.js:801-807: one Barry-Goldman pyramid evaluation at parameter `t`
over knots `t0..t3` (the ratio divisions may produce `NaN`/`±Infinity`). -/
def crPoint (p0 p1 p2 p3 : JPoint) (t0 t1 t2 t3 t : ℚ) : JPoint :=
  let A1 := lerpPoint p0 p1 (jdivQ (t1 - t) (t1 - t0))
  let A2 := lerpPoint p1 p2 (jdivQ (t2 - t) (t2 - t1))
  let A3 := lerpPoint p2 p3 (jdivQ (t3 - t) (t3 - t2))
  let B1 := lerpPoint A1 A2 (jdivQ (t2 - t) (t2 - t0))
  let B2 := lerpPoint A2 A3 (jdivQ (t3 - t) (t3 - t1))
  lerpPoint B1 B2 (jdivQ (t2 - t) (t2 - t1))

/-- admin.js:801-809: the sample loop
`for (let t = t1; t < t2; t += (t2 - t1) / s)`, pushing a sample only when
both components are finite (`Number.isFinite`). Fuel `s + 1` covers the exact
iteration count. -/
def crSamples (f : ℚ → JPoint) (tEnd step : ℚ) : ℕ → ℚ → List Point
  | 0, _ => []
  | fuel + 1, t =>
    if t < tEnd then
      (match f t with
       | (.fin x, .fin y) => [((x, y) : Point)]
       | _ => []) ++ crSamples f tEnd step fuel (t + step)
    else []

/-- admin.js:776-813 `catmullRom`. The control sequence is padded with a
duplicated first and last point; each window `p[i..i+3]` gets chord-length
knots and is sampled on `[t1, t2)`; the input's last point is pushed at the
end. `chord p q` models the external
`Math.pow(Math.sqrt(dx² + dy²), a)` chord weight with the clamped centripetal
parameter `a = clamp01(alpha || 0.5)` folded in (for the claim's α = 0.5 it is
`dist(p,q)^(1/2)`: zero iff `p = q`, positive otherwise). `samples = 0` models
a falsy `samples` argument (`samples || 8`). -/
def catmullRom (chord : Point → Point → ℚ) (pts : List Point) (samples : ℕ) : List Point :=
  if pts.length < 2 then pts
  else
    let s := max 2 (if samples = 0 then 8 else samples)
    let p := [pts.getD 0 (0, 0)] ++ pts ++ [pts.getD (pts.length - 1) (0, 0)]
    let result := (List.range (p.length - 3)).flatMap fun i =>
      let p0 := p.getD i (0, 0)
      let p1 := p.getD (i + 1) (0, 0)
      let p2 := p.getD (i + 2) (0, 0)
      let p3 := p.getD (i + 3) (0, 0)
      let t0 : ℚ := 0
      let t1 := chord p0 p1 + t0
      let t2 := chord p1 p2 + t1
      let t3 := chord p2 p3 + t2
      crSamples (fun t => crPoint (liftP p0) (liftP p1) (liftP p2) (liftP p3) t0 t1 t2 t3 t)
        t2 ((t2 - t1) / (s : ℚ)) (s + 1) t1
    result ++ [pts.getD (pts.length - 1) (0, 0)]

/-- The clamped weight `ww` that `lerpPoint` derives from any JS ratio. -/
def wwVal : JNum → ℚ
  | .fin q => max 0 (min 1 (1 - q))
  | .nan => 1
  | .pinf => 0
  | .ninf => 1

/-- The finite linear interpolation `lerpPoint` computes on finite inputs. -/
def lerpQ (a b : Point) (q : ℚ) : Point :=
  (a.1 + (b.1 - a.1) * q, a.2 + (b.2 - a.2) * q)

/-- The weight produced by the JS ratio `num/den` after `lerpPoint`'s
clamping. -/
def rww (num den : ℚ) : ℚ := wwVal (jdivQ num den)

/-- The finite value of one pyramid evaluation on finite control points. -/
def crQ (p0 p1 p2 p3 : Point) (t0 t1 t2 t3 t : ℚ) : Point :=
  let A1 := lerpQ p0 p1 (rww (t1 - t) (t1 - t0))
  let A2 := lerpQ p1 p2 (rww (t2 - t) (t2 - t1))
  let A3 := lerpQ p2 p3 (rww (t3 - t) (t3 - t2))
  let B1 := lerpQ A1 A2 (rww (t2 - t) (t2 - t0))
  let B2 := lerpQ A2 A3 (rww (t3 - t) (t3 - t1))
  lerpQ B1 B2 (rww (t2 - t) (t2 - t1))

/-! ## Validation (admin.js:834-866) -/

/-- A raw walkway feature before validation: the geometry-type flag and
coordinates whose components may be non-finite (a missing component reads as
`Number(undefined) = NaN`). -/
structure RawFeature where
  lineString : Bool
  coords : List (JNum × JNum)
deriving DecidableEq, Repr

/-- admin.js:853-859, the per-point rule: keep a point iff both components are
finite and within world bounds (`|lng| ≤ 180`, `|lat| ≤ 90`). -/
def validPoint : JNum × JNum → Option Point
  | (.fin lng, .fin lat) => if |lng| > 180 ∨ |lat| > 90 then none else some (lng, lat)
  | _ => none

/-- admin.js:849-866 `sanitizeWalkwayFeature`: `null` for non-LineString
records; otherwise drop invalid points and return `null` iff fewer than 2
valid points remain (the properties passthrough is not modelled). -/
def sanitizeWalkwayFeature (f : RawFeature) : Option (List Point) :=
  if f.lineString = false then none
  else
    let cleaned := f.coords.filterMap validPoint
    if cleaned.length < 2 then none else some cleaned

/-- admin.js:834-842 `sanitizeFeatureCollection`: keep every record the
per-record sanitizer accepts, in order. -/
def sanitizeFeatureCollection (fs : List RawFeature) : List (List Point) :=
  fs.filterMap sanitizeWalkwayFeature

/-! ## Walkway records and split-at-point (part_001:1187-1262, walkwayStore.js:175-225) -/

/-- The walkway properties the split operation reads or writes: `_id`, `name`,
`type` and `segmentIndex` (the remaining properties are copied verbatim by the
same `Object.assign` and are omitted). The source field `type` is a Lean
keyword and is rendered `ptype`. -/
structure WProps where
  pid : Option String
  name : Option String
  ptype : Option String
  segmentIndex : Option ℤ
deriving DecidableEq, Repr

/-- A persisted walkway record (a GeoJSON LineString feature): properties plus
the coordinate list. -/
structure WFeature where
  props : WProps
  coords : List Point
deriving DecidableEq, Repr

/-- The snap descriptor produced by `findClosestSnapOnWalkways`
(part_001:1123-1171): the target feature, the snapped point, and the index of
the segment it lies on. -/
structure SnapInfo where
  feature : WFeature
  snapped : Point
  segmentIndex : ℕ
deriving DecidableEq, Repr

/-- walkwayStore.js:175-178 (`upsertWalkway`): keep an existing `_id`,
otherwise assign the server-generated fresh one (`makeId()`), and return the
record with that id. The SQL write is external I/O; the returned `withId`
record is what the client stores. -/
def upsertWalkwayId (freshId : String) (f : WFeature) : WFeature :=
  { f with props := { f.props with pid := some (f.props.pid.getD freshId) } }

/-- part_001:1198-1200 `same`: the split operation's own copy of the per-axis
`1e-10` coincidence test. -/
def sameCoord (c1 c2 : Point) : Bool :=
  decide (|c1.1 - c2.1| < 1 / 10 ^ 10 ∧ |c1.2 - c2.2| < 1 / 10 ^ 10)

/-- part_001:1187-1262 `splitWalkwayAtPoint`, acting on the in-memory record
collection `walkwayFeatures` (the `store` array). A no-op when the snapped
point essentially coincides with either endpoint of its segment; otherwise the
first record matching the original's `_id` is removed (`findIndex`/`splice`)
and the two halves are persisted through `upsertWalkway` — their `_id` and
`segmentIndex` are deleted first, so the store assigns the fresh ids `id1`,
`id2` (`makeId()`). The Leaflet layer bookkeeping is presentation-side and not
modelled. -/
def splitWalkwayAtPoint (features : List WFeature) (snap : SnapInfo)
    (id1 id2 : String) : List WFeature :=
  let orig := snap.feature
  let coords := orig.coords
  let j := snap.segmentIndex
  let A := coords.getD j (0, 0)
  let B := coords.getD (j + 1) (0, 0)
  let P := snap.snapped
  if sameCoord P A ∨ sameCoord P B then features
  else
    let baseProps : WProps :=
      { pid := none, name := orig.props.name, ptype := orig.props.ptype, segmentIndex := none }
    let f1 : WFeature := ⟨baseProps, coords.take (j + 1) ++ [P]⟩
    let f2 : WFeature := ⟨baseProps, P :: coords.drop (j + 1)⟩
    let removed :=
      match features.findIdx? (fun f => f.props.pid = orig.props.pid) with
      | some idx => features.eraseIdx idx
      | none => features
    removed ++ [upsertWalkwayId id1 f1, upsertWalkwayId id2 f2]

/-! ## Bulk selection policies (part_001:714-796)

`turf.lineSplit`, `turf.booleanPointInPolygon`, `turf.booleanWithin` and
`turf.length` are external-library calls, modelled from the spec's Geometry
Kernel (§4.1): an axis-aligned rectangle shape (the rectangle-select path
always uses one, via `turf.bboxPolygon`), boundary-inclusive point-in-polygon
(turf's default), clipping a line into pieces at its boundary crossings,
and metric length via the `w` parameter. Walkway records are two-point
segments (the admin page's `normalizeWalkways` decomposes every multi-vertex
walkway into independent two-point records). -/

/-- An axis-aligned rectangle (`turf.bboxPolygon([west, south, east, north])`,
part_001:715). -/
structure Rect where
  west : ℚ
  south : ℚ
  east : ℚ
  north : ℚ
deriving DecidableEq, Repr

/-- Modelled from the spec: `turf.booleanPointInPolygon` for a rectangle,
boundary inclusive (turf's default `ignoreBoundary: false`). -/
def pointInRect (p : Point) (r : Rect) : Bool :=
  decide (r.west ≤ p.1 ∧ p.1 ≤ r.east ∧ r.south ≤ p.2 ∧ p.2 ≤ r.north)

/-- The rectangle's four boundary edges. -/
def rectEdges (r : Rect) : List (Point × Point) :=
  [((r.west, r.south), (r.east, r.south)),
   ((r.east, r.south), (r.east, r.north)),
   ((r.east, r.north), (r.west, r.north)),
   ((r.west, r.north), (r.west, r.south))]

/-- Ascending insertion, for sorting crossing parameters. -/
def insertQ (x : ℚ) : List ℚ → List ℚ
  | [] => [x]
  | y :: ys => if x ≤ y then x :: y :: ys else y :: insertQ x ys

/-- Insertion sort on `ℚ`. -/
def sortQ : List ℚ → List ℚ
  | [] => []
  | x :: xs => insertQ x (sortQ xs)

/-- Remove consecutive duplicates (after sorting: full deduplication). -/
def dedupQ : List ℚ → List ℚ
  | [] => []
  | [x] => [x]
  | x :: y :: r => if x = y then dedupQ (y :: r) else x :: dedupQ (y :: r)

/-- The point at parameter `t` on segment `P Q`. -/
def interpSeg (P Q : Point) (t : ℚ) : Point :=
  (P.1 + t * (Q.1 - P.1), P.2 + t * (Q.2 - P.2))

/-- The interior parameters at which segment `P Q` crosses the rectangle
boundary, sorted and deduplicated. -/
def segRectCrossTs (P Q : Point) (r : Rect) : List ℚ :=
  let ts := (rectEdges r).filterMap fun ed => (segInter P Q ed.1 ed.2).map (computeT P Q)
  dedupQ (sortQ (ts.filter fun t => 0 < t ∧ t < 1))

/-- Modelled from the spec: `turf.lineSplit` of a two-point line by a
rectangle — the clipped pieces between consecutive boundary crossings (an
uncrossed line is a single piece). -/
def lineSplitRect (P Q : Point) (r : Rect) : List (List Point) :=
  let ts := segRectCrossTs P Q r
  if ts = [] then [[P, Q]]
  else
    let params := [0] ++ ts ++ [1]
    (List.range (params.length - 1)).map fun i =>
      [interpSeg P Q (params.getD i 0), interpSeg P Q (params.getD (i + 1) 0)]

/-- `turf.length`: the metric length of a polyline under `w`. -/
def pathLen (w : DistFn) : List Point → ℚ
  | a :: b :: rest => w a b + pathLen w (b :: rest)
  | _ => 0

/-- part_001:779-796 `lengthInsideRect` for a two-point walkway: clip the line
by the rectangle, take each piece's middle vertex
(`coordinates[floor(len/2)]`), sum the lengths of the pieces whose middle
vertex lies in the rectangle, and clamp `inside/total` to `[0,1]` (with the
`|| 0.000001` zero-total guard). -/
def lengthInsideRect (w : DistFn) (P Q : Point) (r : Rect) : ℚ :=
  let pieces := lineSplitRect P Q r
  let inside := (pieces.map fun pc =>
    if pointInRect (pc.getD (pc.length / 2) (0, 0)) r then pathLen w pc else 0).sum
  let total0 := pathLen w [P, Q]
  let total := if total0 = 0 then 1 / 10 ^ 6 else total0
  min 1 (max 0 (inside / total))

/-- `lengthInsideRect` of a two-point walkway record. -/
def lengthInsideRectF (w : DistFn) (f : WFeature) (r : Rect) : ℚ :=
  lengthInsideRect w (f.coords.getD 0 (0, 0)) (f.coords.getD 1 (0, 0)) r

/-- Modelled from the spec: `turf.booleanWithin(line, polygon)` for a
rectangle — full containment of the line. -/
def lineWithinRect (coords : List Point) (r : Rect) : Bool :=
  coords.all (pointInRect · r)

/-- part_001:714-725 `selectWalkwaysInRect`: the ids added to the bulk
selection set — those of records (with an id) whose inside-length ratio is at
least `0.5`. -/
def selectWalkwaysInRect (w : DistFn) (ws : List WFeature) (r : Rect) : List String :=
  ws.filterMap fun f =>
    match f.props.pid with
    | none => none
    | some id => if (1 / 2 : ℚ) ≤ lengthInsideRectF w f r then some id else none

/-- part_001:749-771 `deleteWalkwaysInPolygon`: the store after removing
exactly the records (with an id) that lie fully within the polygon. -/
def deleteWalkwaysInPolygon (ws : List WFeature) (r : Rect) : List WFeature :=
  ws.filter fun f => ¬(f.props.pid.isSome ∧ lineWithinRect f.coords r)

/-! ## Claim C2: the two-walkway crossing example

Spec §8: walkways `[[0,0],[10,0]]` and `[[5,-5],[5,5]]` crossing at `[5,0]`.
The claimed count of 6 nodes is wrong: the crossing point is deduplicated by
exact-match, so the build yields exactly 5 nodes, and the shortest path from
`(0,0)` to `(10,0)` has distance 10 with its path running *through* the
crossing node `(5,0)` (node index 1). -/

/-- The §8 example input: two crossing walkways. -/
def crossFC : List RawLine :=
  [⟨true, [(0, 0), (10, 0)]⟩, ⟨true, [(5, -5), (5, 5)]⟩]

/-- The graph the build produces on `crossFC`, with the edge weights still
abstract in the metric `w`. -/
def gCross (w : DistFn) : Graph :=
  { nodes := [(0, 0), (5, 0), (10, 0), (5, -5), (5, 5)],
    adj := [[⟨1, w (0, 0) (5, 0)⟩],
            [⟨0, w (0, 0) (5, 0)⟩, ⟨2, w (5, 0) (10, 0)⟩,
             ⟨3, w (5, -5) (5, 0)⟩, ⟨4, w (5, 0) (5, 5)⟩],
            [⟨1, w (5, 0) (10, 0)⟩],
            [⟨1, w (5, -5) (5, 0)⟩],
            [⟨1, w (5, 0) (5, 5)⟩]],
    segments := [⟨0, 1, (0, 0), (5, 0)⟩, ⟨1, 2, (5, 0), (10, 0)⟩,
                 ⟨3, 1, (5, -5), (5, 0)⟩, ⟨1, 4, (5, 0), (5, 5)⟩] }

/-- A concrete metric agreeing with the planar distance on every axis-aligned
pair of the crossing example (`|Δx| + |Δy|`). -/
def wDemo : DistFn := fun p q => |p.1 - q.1| + |p.2 - q.2|

/-- A concrete metre-valued metric placing all distinct points farther apart
than the 2-metre consolidation tolerance. -/
def wmDemo : DistFn := fun p q => if p = q then 0 else 5

/-- A concrete walkway record for the C1 witness. -/
def origEx : WFeature :=
  ⟨⟨some "w1", some "Main path", some "walkway", some 0⟩, [(0, 0), (10, 0)]⟩

/-- A concrete chord weight for the witness: the discrete metric (zero iff the
points coincide, as the centripetal chord weight is for α = 0.5). -/
def chordDemo : Point → Point → ℚ := fun p q => if p = q then 0 else 1

/-- A record with two valid points and one non-finite point. -/
def recBadPoint : RawFeature :=
  ⟨true, [(.fin 0, .fin 0), (.fin 1, .fin 1), (.nan, .fin 5)]⟩

/-! ## Claim C7: the two bulk-selection policies are distinct -/

/-- A two-point walkway from `(1,0)` to `(11,0)` with id `"L"`. -/
def fLine : WFeature := ⟨⟨some "L", none, some "walkway", none⟩, [(1, 0), (11, 0)]⟩

/-- A rectangle containing 40% of `fLine`'s length (x ∈ [1,5] of [1,11]). -/
def rect40 : Rect := ⟨0, -1, 5, 1⟩

/-- A rectangle containing 60% of `fLine`'s length (x ∈ [1,7] of [1,11]). -/
def rect60 : Rect := ⟨0, -1, 7, 1⟩

/-- A one-segment demo graph for the C4 witness. -/
def gSeg1 : Graph :=
  ⟨[(0, 0), (1, 0)], [[⟨1, 1⟩], [⟨0, 1⟩]], [⟨0, 1, (0, 0), (1, 0)⟩]⟩

/-- Undirected adjacency: every `u → v` entry has a matching `v → u` entry of
the same weight. -/
def SymA (adj : List (List Entry)) : Prop :=
  ∀ u v q, (⟨v, q⟩ : Entry) ∈ adj.getD u [] → (⟨u, q⟩ : Entry) ∈ adj.getD v []

/-- Every adjacency entry's target index is a valid node index. -/
def ClosedA (adj : List (List Entry)) (n : ℕ) : Prop :=
  ∀ u e, e ∈ adj.getD u [] → e.toIdx < n

/-- Every adjacency entry's weight is nonnegative. -/
def NonnegA (adj : List (List Entry)) : Prop :=
  ∀ u e, e ∈ adj.getD u [] → 0 ≤ e.weight

/-- The contract of the node-allocation fold (client.js:421), relative to a
starting graph and an already-collected index list: the graph keeps its
segments and existing adjacency lists, only grows its node array, and the
output index list is in range, contains every newly allocated index, and has
one index per coordinate. -/
def ICSpec (st : Graph) (l0 : List ℕ) (coords : List Point) (r : Graph × List ℕ) : Prop :=
  r.1.adj.length = r.1.nodes.length ∧
  r.1.segments = st.segments ∧
  st.nodes.length ≤ r.1.nodes.length ∧
  (∀ i, r.1.adj.getD i [] = st.adj.getD i []) ∧
  (∀ k ∈ r.2, k < r.1.nodes.length) ∧
  (∀ k ∈ l0, k ∈ r.2) ∧
  (∀ i, st.nodes.length ≤ i → i < r.1.nodes.length → i ∈ r.2) ∧
  r.2.length = l0.length + coords.length

/-- The structural invariant of the routing graph, established by
`buildWalkwayGraph` and preserved by `insertPointIntoGraph`: adjacency and node
arrays line up, segment endpoints are valid node indices, adjacency is
symmetric (undirected), edge targets are in range, and every node is an
endpoint of at least one segment with a nonempty adjacency list. -/
structure GInv (g : Graph) : Prop where
  wf : g.adj.length = g.nodes.length
  segValid : ∀ sg ∈ g.segments, sg.a < g.nodes.length ∧ sg.b < g.nodes.length
  sym : SymA g.adj
  closed : ClosedA g.adj g.nodes.length
  covered : ∀ i, i < g.nodes.length →
    g.adj.getD i [] ≠ [] ∧ ∃ sg ∈ g.segments, i = sg.a ∨ i = sg.b

/-- The contract of the consecutive-edge fold (client.js:423-439): nodes are
untouched, adjacency and segments only grow (new segments staying within the
current node range), symmetry/closure/nonnegativity of the adjacency are
preserved, and when the vertex list has at least two entries every listed
index ends up with a nonempty adjacency list and a segment endpoint. -/
def AESpec (w : DistFn) (st : Graph) (l : List (ℕ × Point)) (res : Graph) : Prop :=
  res.nodes = st.nodes ∧
  res.adj.length = st.adj.length ∧
  (∀ i e, e ∈ st.adj.getD i [] → e ∈ res.adj.getD i []) ∧
  (∀ sg ∈ st.segments, sg ∈ res.segments) ∧
  (∀ sg ∈ res.segments, sg ∈ st.segments ∨ (sg.a < st.nodes.length ∧ sg.b < st.nodes.length)) ∧
  (SymA st.adj → SymA res.adj) ∧
  (ClosedA st.adj st.nodes.length → ClosedA res.adj st.nodes.length) ∧
  ((∀ p q : Point, 0 ≤ w p q) → NonnegA st.adj → NonnegA res.adj) ∧
  (2 ≤ l.length → ∀ x ∈ l, res.adj.getD x.1 [] ≠ [] ∧
    ∃ sg ∈ res.segments, x.1 = sg.a ∨ x.1 = sg.b)

/-! ## Dijkstra correctness (for claim C5) -/

/-- Nonstrict counterpart of `infLT` (`none` is `Infinity`). -/
def infLE : JDist → JDist → Prop
  | _, none => True
  | none, some _ => False
  | some a, some b => a ≤ b

/-- A walk in the routing graph from `a`, following adjacency entries, with its
accumulated weight. -/
inductive HasWalk (g : Graph) (a : ℕ) : ℕ → ℚ → Prop where
  | base : HasWalk g a a 0
  | step {v : ℕ} {d : ℚ} (e : Entry) (hw : HasWalk g a v d) (he : e ∈ adjGet g v) :
      HasWalk g a e.toIdx (d + e.weight)

/-- What one pass of the client.js:581-588 minimum scan guarantees, relative to
the incoming accumulator: the tracked best only decreases, a selected index is
unvisited with finite recorded distance and comes from the accumulator or the
scanned list, `null` means nothing was ever selected, and no scanned unvisited
index beats the final best. -/
def SMSpec (s : DState) (l : List ℕ) (acc r : Option ℕ × JDist) : Prop :=
  infLE r.2 acc.2 ∧
  (∀ u, r.1 = some u → s.visited u = false ∧ s.dist u = r.2 ∧ r.2 ≠ none ∧
    (acc.1 = some u ∨ u ∈ l)) ∧
  (r.1 = none → r.2 = none ∧ acc.1 = none) ∧
  (∀ j ∈ l, s.visited j = false → ¬ infLT (s.dist j) r.2)

/-- What the relaxation pass over an edge list guarantees (client.js:593-601):
visited flags untouched, `dist[u]` itself unchanged (weights are nonnegative),
distances only decrease, every change comes from one of the listed edges, and
at the end no listed edge still offers a strictly better distance. -/
def RLSpec (u : ℕ) (l : List Entry) (s r : DState) : Prop :=
  r.visited = s.visited ∧
  r.dist u = s.dist u ∧
  (∀ v, infLE (r.dist v) (s.dist v)) ∧
  (∀ v, r.dist v = s.dist v ∨ ∃ e ∈ l, e.toIdx = v ∧ r.dist v = infAdd (s.dist u) e.weight) ∧
  (∀ e ∈ l, ¬ infLT (infAdd (s.dist u) e.weight) (r.dist e.toIdx))

/-- The Dijkstra loop invariant (client.js:580-602): every recorded distance is
attained by a walk, visited nodes carry an optimal finite distance, edges out
of visited nodes are fully relaxed, the start keeps a nonpositive finite
distance, and indices outside `0..n-1` are never touched. -/
structure DInv (g : Graph) (a n : ℕ) (s : DState) : Prop where
  attain : ∀ v d, s.dist v = some d → HasWalk g a v d
  visOpt : ∀ v, s.visited v = true → ∀ d', HasWalk g a v d' →
    ∃ dv, s.dist v = some dv ∧ dv ≤ d'
  frontier : ∀ u, s.visited u = true → ∀ e, e ∈ adjGet g u →
    ¬ infLT (infAdd (s.dist u) e.weight) (s.dist e.toIdx)
  startLe : ∃ da, s.dist a = some da ∧ da ≤ 0
  high : ∀ v, n ≤ v → s.dist v = none ∧ s.visited v = false

/-- Number of unvisited indices below `n` — the loop's termination measure. -/
def countFalse (n : ℕ) (s : DState) : ℕ :=
  ((List.range n).filter (fun i => s.visited i = false)).length

/-- What the terminated loop guarantees about the end node: a recorded finite
distance is attained by some walk and is minimal among all walks, and a still
infinite distance means no walk reaches the end node at all. -/
def DFinal (g : Graph) (a b : ℕ) (s : DState) : Prop :=
  (∀ d, s.dist b = some d → HasWalk g a b d ∧ ∀ d', HasWalk g a b d' → d ≤ d') ∧
  (s.dist b = none → ∀ d', ¬ HasWalk g a b d')

/-! ## Generic helper lemmas -/

theorem validPoint_bounds {c0 : JNum × JNum} {p : Point}
    (hv : validPoint c0 = some p) : |p.1| ≤ 180 ∧ |p.2| ≤ 90 := by
  obtain ⟨cx, cy⟩ := c0
  cases cx with
  | fin x =>
    cases cy with
    | fin y =>
      simp only [validPoint] at hv
      split_ifs at hv with hcond
      · obtain rfl := Option.some.inj hv
        push_neg at hcond
        simpa using hcond
    | nan => simp [validPoint] at hv
    | pinf => simp [validPoint] at hv
    | ninf => simp [validPoint] at hv
  | nan => simp [validPoint] at hv
  | pinf => simp [validPoint] at hv
  | ninf => simp [validPoint] at hv

theorem findIdx?_append_cons {α : Type} (p : α → Bool) (pre post : List α) (x : α)
    (hpre : ∀ a ∈ pre, p a = false) (hx : p x = true) :
    (pre ++ x :: post).findIdx? p = some pre.length := by
  induction pre with
  | nil => simp [List.findIdx?_cons, hx]
  | cons y ys ih =>
    have hy : p y = false := hpre y (by simp)
    simp only [List.cons_append, List.findIdx?_cons, hy, Bool.false_eq_true, if_false]
    rw [List.findIdx?_succ, ih fun a ha => hpre a (by simp [ha])]
    simp

theorem eraseIdx_append_cons {α : Type} (pre post : List α) (x : α) :
    (pre ++ x :: post).eraseIdx pre.length = pre ++ post := by
  induction pre with
  | nil => simp
  | cons y ys ih => simp [List.eraseIdx, ih]

theorem foldl_fixed {α β : Type} {f : α → β → α} {a : α} {l : List β}
    (h : ∀ b ∈ l, f a b = a) : l.foldl f a = a := by
  induction l with
  | nil => rfl
  | cons x xs ih =>
    simp only [List.foldl_cons, h x (by simp)]
    exact ih fun b hb => h b (by simp [hb])

/-- The consolidation pass is the identity when every node pair is farther
apart than the tolerance. -/
theorem connectNearbyNodes_id (wm : DistFn) (tol : ℚ) (st : Graph)
    (h : ∀ j, j < st.nodes.length → ∀ i, i < j →
      ¬(wm (st.nodes.getD i (0, 0)) (st.nodes.getD j (0, 0)) ≤ tol)) :
    connectNearbyNodes wm tol st = st := by
  unfold connectNearbyNodes
  apply foldl_fixed
  intro i hi
  apply foldl_fixed
  intro j hj
  rw [List.mem_range'_1] at hj
  rw [List.mem_range] at hi
  unfold connectPair
  rw [if_neg]
  exact h j (by omega) i (by omega)

theorem crossFC_refine :
    refineAll (extractWalkways crossFC) =
      [[(0, 0), (5, 0), (10, 0)], [(5, -5), (5, 0), (5, 5)]] := by
  norm_num [refineAll, refineWalkway, refineSeg, segIntersections, segInter, computeT,
    extractWalkways, crossFC, sortByT, insertByT, List.range_succ, List.filterMap_cons,
    -Prod.mk_zero_zero, Prod.mk.injEq]

theorem crossFC_fold (w : DistFn) :
    ([[(0, 0), (5, 0), (10, 0)], [(5, -5), (5, 0), (5, 5)]] : List (List Point)).foldl
      (addWalkway w) ⟨[], [], []⟩ = gCross w := by
  norm_num [addWalkway, indexCoords, icStep, getNodeIndex, addEdges, addEdge, pushPair,
    pushAdj, List.findIdx?, gCross, -Prod.mk_zero_zero, Prod.mk.injEq]

/-- On the crossing example the build is fully determined once no node pair is
within the consolidation tolerance. -/
theorem crossFC_build (w wm : DistFn) (hwm : ∀ p q : Point, p ≠ q → 2 < wm p q) :
    buildWalkwayGraph w wm crossFC = gCross w := by
  unfold buildWalkwayGraph
  simp only [crossFC_refine, crossFC_fold]
  apply connectNearbyNodes_id
  have hd : ∀ j, j < 5 → ∀ i, i < j →
      (([(0, 0), (5, 0), (10, 0), (5, -5), (5, 5)] : List Point).getD i (0, 0)) ≠
        (([(0, 0), (5, 0), (10, 0), (5, -5), (5, 5)] : List Point).getD j (0, 0)) := by
    decide
  intro j hj i hij
  exact not_le.mpr (hwm _ _ (hd j (by simpa [gCross] using hj) i hij))

/-- C2 (amended): on the §8 crossing example the build yields exactly the five
nodes `(0,0), (5,0), (10,0), (5,-5), (5,5)` — the four endpoints plus the
single shared crossing node — and the shortest path from `(0,0)` (node 0) to
`(10,0)` (node 2) has distance 10, its node path `[0, 1, 2]` running through
the crossing node `(5,0)` (node 1). Hypotheses pin the planar distances the
example relies on: each refined half-edge has length 5, and all distinct node
pairs are farther apart than the 2-metre consolidation tolerance. -/
theorem crossExample_nodes_and_route (w wm : DistFn)
    (h1 : w (0, 0) (5, 0) = 5) (h2 : w (5, 0) (10, 0) = 5)
    (h3 : w (5, -5) (5, 0) = 5) (h4 : w (5, 0) (5, 5) = 5)
    (hwm : ∀ p q : Point, p ≠ q → 2 < wm p q) :
    (buildWalkwayGraph w wm crossFC).nodes = [(0, 0), (5, 0), (10, 0), (5, -5), (5, 5)] ∧
    dijkstraShortestPath (buildWalkwayGraph w wm crossFC) 0 2 = some (10, [0, 1, 2]) := by
  rw [crossFC_build w wm hwm]
  refine ⟨rfl, ?_⟩
  simp only [gCross, h1, h2, h3, h4]
  norm_num [dijkstraShortestPath, dInit, dijkstraLoop, selectMin, relaxAll, relaxEdge, markVisited,
    adjGet, walkPrev, infLT, infAdd, List.range_succ, -Prod.mk_zero_zero, Prod.mk.injEq]

theorem crossExample_nodes_and_route_witness :
    (buildWalkwayGraph wDemo wmDemo crossFC).nodes =
      [(0, 0), (5, 0), (10, 0), (5, -5), (5, 5)] ∧
    dijkstraShortestPath (buildWalkwayGraph wDemo wmDemo crossFC) 0 2 =
      some (10, [0, 1, 2]) :=
  crossExample_nodes_and_route wDemo wmDemo
    (by norm_num [wDemo]) (by norm_num [wDemo]) (by norm_num [wDemo]) (by norm_num [wDemo])
    (fun p q hpq => by norm_num [wmDemo, hpq])

/-- C2 counterexample: the claim's "6 nodes in total" is false — the build on
the crossing example produces 5 nodes (the crossing point is shared). -/
theorem crossExample_not_six_nodes :
    (buildWalkwayGraph wDemo wmDemo crossFC).nodes.length = 5 ∧
    (buildWalkwayGraph wDemo wmDemo crossFC).nodes.length ≠ 6 := by
  have h := crossFC_build wDemo wmDemo (fun p q hpq => by norm_num [wmDemo, hpq])
  rw [h]
  exact ⟨rfl, by simp [gCross]⟩

/-! ## Claim C1: split-at-point -/

/-- C1: splitting a walkway at a snapped point `P` on segment
`(coords[j], coords[j+1])`. If `P` essentially coincides with either endpoint
the record collection is returned unchanged. Otherwise the one original record
(located by its `_id`; `hpre` says no earlier record shares it) is replaced by
exactly two new records `[...before, P]` and `[P, ...after]`, both inheriting
the original's `name` and `type`, with `segmentIndex` cleared and the fresh
store-assigned identifiers `id1`, `id2`. -/
theorem splitWalkwayAtPoint_spec (pre post : List WFeature) (snap : SnapInfo)
    (id1 id2 : String)
    (hpre : ∀ f ∈ pre, f.props.pid ≠ snap.feature.props.pid) :
    ((sameCoord snap.snapped (snap.feature.coords.getD snap.segmentIndex (0, 0)) = true ∨
      sameCoord snap.snapped (snap.feature.coords.getD (snap.segmentIndex + 1) (0, 0)) = true) →
      splitWalkwayAtPoint (pre ++ snap.feature :: post) snap id1 id2 =
        pre ++ snap.feature :: post) ∧
    (sameCoord snap.snapped (snap.feature.coords.getD snap.segmentIndex (0, 0)) = false →
     sameCoord snap.snapped (snap.feature.coords.getD (snap.segmentIndex + 1) (0, 0)) = false →
      splitWalkwayAtPoint (pre ++ snap.feature :: post) snap id1 id2 =
        (pre ++ post) ++
        [⟨⟨some id1, snap.feature.props.name, snap.feature.props.ptype, none⟩,
          snap.feature.coords.take (snap.segmentIndex + 1) ++ [snap.snapped]⟩,
         ⟨⟨some id2, snap.feature.props.name, snap.feature.props.ptype, none⟩,
          snap.snapped :: snap.feature.coords.drop (snap.segmentIndex + 1)⟩]) := by
  constructor
  · intro hend
    unfold splitWalkwayAtPoint
    rw [if_pos]
    simpa using hend
  · intro hA hB
    simp only [splitWalkwayAtPoint, hA, hB, Bool.false_eq_true, or_self, if_false]
    rw [findIdx?_append_cons _ pre post snap.feature
      (fun f hf => by simpa using hpre f hf) (by simp)]
    simp [eraseIdx_append_cons, upsertWalkwayId]

theorem splitWalkwayAtPoint_spec_witness :
    splitWalkwayAtPoint [origEx] ⟨origEx, (4, 0), 0⟩ "n1" "n2" =
      [⟨⟨some "n1", some "Main path", some "walkway", none⟩, [(0, 0), (4, 0)]⟩,
       ⟨⟨some "n2", some "Main path", some "walkway", none⟩, [(4, 0), (10, 0)]⟩] := by
  have h := (splitWalkwayAtPoint_spec [] [] ⟨origEx, (4, 0), 0⟩ "n1" "n2" (by simp)).2
    (by norm_num [sameCoord, origEx]) (by norm_num [sameCoord, origEx])
  simpa [origEx] using h

/-! ## Claim C3: Catmull-Rom endpoint interpolation -/

theorem lerpPoint_lift (a b : Point) (w : JNum) :
    lerpPoint (liftP a) (liftP b) w = liftP (lerpQ a b (wwVal w)) := by
  cases w <;>
    simp [lerpPoint, liftP, lerpQ, wwVal, jor0, jsub, jadd, jneg, jmin1, jmax0, jmul,
      sub_eq_add_neg]

theorem crPoint_lift (p0 p1 p2 p3 : Point) (t0 t1 t2 t3 t : ℚ) :
    crPoint (liftP p0) (liftP p1) (liftP p2) (liftP p3) t0 t1 t2 t3 t =
      liftP (crQ p0 p1 p2 p3 t0 t1 t2 t3 t) := by
  simp only [crPoint, crQ, lerpPoint_lift, rww]

theorem rww_num_zero (d : ℚ) : rww 0 d = 1 := by
  unfold rww jdivQ wwVal
  by_cases hd : d = 0 <;> simp [hd]

theorem rww_self {n : ℚ} (h : n ≠ 0) : rww n n = 0 := by
  unfold rww jdivQ wwVal
  simp [h, div_self h]

theorem rww_ge_one {n d : ℚ} (hd : 0 < d) (hnd : d ≤ n) : rww n d = 0 := by
  unfold rww jdivQ wwVal
  rw [if_neg (by positivity)]
  have h1 : (1 : ℚ) ≤ n / d := (le_div_iff₀ hd).mpr (by linarith)
  simp only [wwVal]
  have : min 1 (1 - n / d) ≤ 0 := le_trans (min_le_right _ _) (by linarith)
  rw [max_eq_left this]

theorem rww_pos_zero {n : ℚ} (hn : 0 < n) : rww n 0 = 0 := by
  unfold rww jdivQ wwVal
  simp [hn.ne', hn]

theorem lerpQ_zero (a b : Point) : lerpQ a b 0 = a := by
  simp [lerpQ]

theorem lerpQ_one (a b : Point) : lerpQ a b 1 = b := by
  simp [lerpQ]

theorem lerpQ_self (a : Point) (q : ℚ) : lerpQ a a q = a := by
  simp [lerpQ]

theorem crQ_seg0_start (A bend B : Point) (c1 c2 : ℚ) (h1 : 0 < c1) (h2 : 0 ≤ c2) :
    crQ A A bend B 0 0 c1 (c1 + c2) 0 = A := by
  unfold crQ
  rw [show c1 - (0:ℚ) = c1 by ring, show (0:ℚ) - 0 = 0 by ring,
    show c1 + c2 - 0 = c1 + c2 by ring, show c1 + c2 - c1 = c2 by ring]
  have e1 : rww (0:ℚ) 0 = 1 := rww_num_zero 0
  have e2 : rww c1 c1 = 0 := rww_self h1.ne'
  have e3 : rww (c1 + c2) c2 = 0 := by
    rcases eq_or_lt_of_le h2 with h | h
    · rw [← h, add_zero]
      exact rww_pos_zero h1
    · exact rww_ge_one h (by linarith)
  have e4 : rww (c1 + c2) (c1 + c2) = 0 := rww_self (by positivity)
  simp [e1, e2, e3, e4, lerpQ_zero, lerpQ_one, lerpQ_self]

theorem crQ_seg1_start (A bend B : Point) (c1 c2 : ℚ) (h2 : 0 < c2) :
    crQ A bend B B 0 c1 (c1 + c2) (c1 + c2) c1 = bend := by
  unfold crQ
  rw [show c1 - c1 = (0:ℚ) by ring, show c1 - (0:ℚ) = c1 by ring,
    show c1 + c2 - c1 = c2 by ring, show c1 + c2 - (c1 + c2) = (0:ℚ) by ring]
  have e1 : rww (0:ℚ) c1 = 1 := rww_num_zero c1
  have e2 : rww c2 c2 = 0 := rww_self h2.ne'
  simp [e1, e2, lerpQ_zero, lerpQ_one, lerpQ_self]

theorem crSamples_cons (f : ℚ → JPoint) (tEnd step : ℚ) (fuel : ℕ) (t : ℚ)
    (h : t < tEnd) (v : Point) (hf : f t = liftP v) :
    crSamples f tEnd step (fuel + 1) t = v :: crSamples f tEnd step fuel (t + step) := by
  simp [crSamples, h, hf, liftP]

theorem crSamples_stop (f : ℚ → JPoint) (tEnd step : ℚ) (fuel : ℕ) (t : ℚ)
    (h : ¬t < tEnd) : crSamples f tEnd step fuel t = [] := by
  cases fuel with
  | zero => rfl
  | succ n => simp [crSamples, h]

theorem crQ_seg0_flex (A bend B : Point) (c1 c2 t3 : ℚ) (h1 : 0 < c1) (h2 : 0 ≤ c2)
    (ht : t3 = c2 + c1) : crQ A A bend B 0 0 c1 t3 0 = A := by
  rw [ht, show c2 + c1 = c1 + c2 by ring]
  exact crQ_seg0_start A bend B c1 c2 h1 h2

theorem crQ_seg1_flex (A bend B : Point) (c1 c2 t2 t3 : ℚ) (h2 : 0 < c2)
    (ht2 : t2 = c1 + c2) (ht3 : t3 = c1 + c2) : crQ A bend B B 0 c1 t2 t3 c1 = bend := by
  rw [ht2, ht3]
  exact crQ_seg1_start A bend B c1 c2 h2

/-- C3: for every pair of distinct control points `A ≠ B`, every bend point and
sample count, the Catmull-Rom resampling of `[A, bend, B]` starts exactly at
`A`, ends exactly at `B`, and passes through `bend` (pushed exactly at its
knot parameter `t1` of the second window). The hypotheses are the properties
of the centripetal chord weight `d^α` at the claim's `α = 0.5`: zero on
coincident points, positive on distinct ones. Notably the `t = t1` sample of
the first window survives because `lerpPoint`'s `w || 0` turns the `0/0 = NaN`
ratio into weight `0`. -/
theorem catmullRom_three_point (chord : Point → Point → ℚ) (A bend B : Point) (samples : ℕ)
    (hc0 : ∀ p, chord p p = 0)
    (hcpos : ∀ p q, p ≠ q → 0 < chord p q)
    (hcnn : ∀ p q, 0 ≤ chord p q)
    (hAB : A ≠ B) :
    (catmullRom chord [A, bend, B] samples).head? = some A ∧
    (catmullRom chord [A, bend, B] samples).getLast? = some B ∧
    bend ∈ catmullRom chord [A, bend, B] samples := by
  refine ⟨?_, ?_, ?_⟩ <;>
    (simp only [catmullRom, List.length_cons, List.length_nil]
     rw [if_neg (by norm_num)]
     norm_num [List.range_succ, List.flatMap_cons, List.flatMap_nil, List.getD,
       List.get?_cons_zero, List.get?_cons_succ, hc0])
  · -- head? = some A
    by_cases hbend : A = bend
    · subst hbend
      refine Or.inr ⟨crSamples_stop _ _ _ _ _ (by rw [hc0]; exact lt_irrefl 0), Or.inl ?_⟩
      rw [crSamples_cons _ _ _ _ _ (by rw [hc0, add_zero]; exact hcpos A B hAB) A ?_]
      · simp
      · show crPoint (liftP A) (liftP A) (liftP B) (liftP B) 0 (chord A A)
          (chord A B + chord A A) (chord A B + chord A A) (chord A A) = liftP A
        rw [crPoint_lift]
        refine congrArg liftP ?_
        rw [hc0]
        exact crQ_seg1_flex A A B 0 (chord A B) _ _ (hcpos A B hAB) (by ring) (by ring)
    · refine Or.inl ?_
      rw [crSamples_cons _ _ _ _ _ (hcpos A bend hbend) A ?_]
      · simp
      · show crPoint (liftP A) (liftP A) (liftP bend) (liftP B) 0 0 (chord A bend)
          (chord bend B + chord A bend) 0 = liftP A
        rw [crPoint_lift]
        exact congrArg liftP (crQ_seg0_flex A bend B _ _ _ (hcpos A bend hbend)
          (hcnn bend B) rfl)
  · -- bend ∈ result (the getLast? conjunct is closed by the common reduction)
    by_cases hbB : bend = B
    · subst hbB
      simp
    · refine Or.inr (Or.inl ?_)
      rw [crSamples_cons _ _ _ _ _ (by nlinarith [hcpos bend B hbB, hcnn A bend]) bend ?_]
      · simp
      · show crPoint (liftP A) (liftP bend) (liftP B) (liftP B) 0 (chord A bend)
          (chord bend B + chord A bend) (chord bend B + chord A bend) (chord A bend) = liftP bend
        rw [crPoint_lift]
        exact congrArg liftP (crQ_seg1_flex A bend B _ _ _ _ (hcpos bend B hbB)
          (by ring) (by ring))

theorem catmullRom_three_point_witness :
    (catmullRom chordDemo [(0, 0), (1, 1), (2, 0)] 8).head? = some (0, 0) ∧
    (catmullRom chordDemo [(0, 0), (1, 1), (2, 0)] 8).getLast? = some (2, 0) ∧
    ((1, 1) : Point) ∈ catmullRom chordDemo [(0, 0), (1, 1), (2, 0)] 8 :=
  catmullRom_three_point chordDemo (0, 0) (1, 1) (2, 0) 8
    (fun p => by simp [chordDemo])
    (fun p q h => by simp [chordDemo, h])
    (fun p q => by unfold chordDemo; split <;> norm_num)
    (by decide)

/-! ## Claim C8: validation of walkway records -/

/-- C8 (amended): validation is point-wise, not record-wise. A record comes
back `null` (is dropped from the collection) exactly when it is not a
LineString or fewer than 2 valid points survive; a surviving record consists
precisely of its finite, in-bounds points; and the collection sanitizer keeps
every surviving record in order — one offending record never aborts the
processing of the rest. -/
theorem sanitizeWalkwayFeature_spec (fs1 fs2 : List RawFeature) (f : RawFeature) :
    (sanitizeWalkwayFeature f = none ↔
      f.lineString = false ∨ (f.coords.filterMap validPoint).length < 2) ∧
    (∀ c, sanitizeWalkwayFeature f = some c →
      c = f.coords.filterMap validPoint ∧ 2 ≤ c.length ∧
      ∀ p ∈ c, |p.1| ≤ 180 ∧ |p.2| ≤ 90) ∧
    sanitizeFeatureCollection (fs1 ++ f :: fs2) =
      sanitizeFeatureCollection fs1 ++ (sanitizeWalkwayFeature f).toList ++
        sanitizeFeatureCollection fs2 := by
  refine ⟨?_, ?_, ?_⟩
  · unfold sanitizeWalkwayFeature
    by_cases hl : f.lineString = false
    · simp [hl]
    · simp only [hl, if_false]
      by_cases hc : (f.coords.filterMap validPoint).length < 2
      · simp [hc, hl]
      · simp [hc, hl]
  · intro c hc
    unfold sanitizeWalkwayFeature at hc
    by_cases hl : f.lineString = false
    · rw [if_pos hl] at hc
      exact absurd hc (by simp)
    · rw [if_neg hl] at hc
      by_cases hlen : (f.coords.filterMap validPoint).length < 2
      · rw [if_pos hlen] at hc
        exact absurd hc (by simp)
      · rw [if_neg hlen] at hc
        obtain rfl : f.coords.filterMap validPoint = c := Option.some.inj hc
        refine ⟨rfl, by omega, ?_⟩
        intro p hp
        rw [List.mem_filterMap] at hp
        obtain ⟨c0, -, hv⟩ := hp
        exact validPoint_bounds hv
  · unfold sanitizeFeatureCollection
    rw [List.filterMap_append, List.filterMap_cons]
    cases sanitizeWalkwayFeature f <;> simp

/-- C8 counterexample: a record *containing* a non-finite coordinate is not
dropped — the offending point is removed and the record survives. -/
theorem sanitize_keeps_record_with_bad_point :
    sanitizeWalkwayFeature recBadPoint = some [(0, 0), (1, 1)] ∧
    sanitizeWalkwayFeature recBadPoint ≠ none := by
  have h : sanitizeWalkwayFeature recBadPoint = some [(0, 0), (1, 1)] := by
    norm_num [sanitizeWalkwayFeature, validPoint, recBadPoint, List.filterMap_cons,
      -Prod.mk_zero_zero, -Prod.mk_one_one]
  exact ⟨h, by rw [h]; exact Option.some_ne_none _⟩

theorem sanitizeWalkwayFeature_spec_witness :
    ([(0, 0), (1, 1)] : List Point) = recBadPoint.coords.filterMap validPoint ∧
    2 ≤ ([(0, 0), (1, 1)] : List Point).length ∧
    ∀ p ∈ ([(0, 0), (1, 1)] : List Point), |p.1| ≤ 180 ∧ |p.2| ≤ 90 :=
  (sanitizeWalkwayFeature_spec [] [] recBadPoint).2.1 [(0, 0), (1, 1)]
    (by norm_num [sanitizeWalkwayFeature, validPoint, recBadPoint, List.filterMap_cons,
      -Prod.mk_zero_zero, -Prod.mk_one_one])

/-- C7: the two bulk policies on the same line and shapes. With 40% of its
length inside the rectangle (ratio `2/5 < 0.5`) the line is selected by
neither policy; with 60% inside (ratio `3/5 ≥ 0.5`) rectangle selection
selects it while polygon deletion still does not remove it (it is not fully
within) — so the threshold policy and the full-containment policy are
genuinely distinct. Hypotheses pin the metric on the three lengths involved. -/
theorem crossTs_rect40 : segRectCrossTs (1, 0) (11, 0) rect40 = [2 / 5] := by
  norm_num [segRectCrossTs, rectEdges, segInter, computeT, rect40, sortQ, insertQ, dedupQ,
    List.filterMap_cons, List.filter_cons, -Prod.mk_zero_zero, -Prod.mk_one_one, Prod.mk.injEq]

theorem crossTs_rect60 : segRectCrossTs (1, 0) (11, 0) rect60 = [3 / 5] := by
  norm_num [segRectCrossTs, rectEdges, segInter, computeT, rect60, sortQ, insertQ, dedupQ,
    List.filterMap_cons, List.filter_cons, -Prod.mk_zero_zero, -Prod.mk_one_one, Prod.mk.injEq]

theorem lineSplit_rect40 :
    lineSplitRect (1, 0) (11, 0) rect40 = [[(1, 0), (5, 0)], [(5, 0), (11, 0)]] := by
  norm_num [lineSplitRect, crossTs_rect40, interpSeg, List.range_succ,
    -Prod.mk_zero_zero, -Prod.mk_one_one, Prod.mk.injEq]

theorem lineSplit_rect60 :
    lineSplitRect (1, 0) (11, 0) rect60 = [[(1, 0), (7, 0)], [(7, 0), (11, 0)]] := by
  norm_num [lineSplitRect, crossTs_rect60, interpSeg, List.range_succ,
    -Prod.mk_zero_zero, -Prod.mk_one_one, Prod.mk.injEq]

theorem bulkSelectionPolicies_distinct (w : DistFn)
    (h4 : w (1, 0) (5, 0) = 4) (h6 : w (1, 0) (7, 0) = 6) (h10 : w (1, 0) (11, 0) = 10) :
    lengthInsideRect w (1, 0) (11, 0) rect40 = 2 / 5 ∧
    selectWalkwaysInRect w [fLine] rect40 = [] ∧
    deleteWalkwaysInPolygon [fLine] rect40 = [fLine] ∧
    lengthInsideRect w (1, 0) (11, 0) rect60 = 3 / 5 ∧
    selectWalkwaysInRect w [fLine] rect60 = ["L"] ∧
    deleteWalkwaysInPolygon [fLine] rect60 = [fLine] := by
  have hl40 : lengthInsideRect w (1, 0) (11, 0) rect40 = 2 / 5 := by
    simp only [lengthInsideRect]
    rw [lineSplit_rect40]
    norm_num [pathLen, pointInRect, rect40, h4, h10,
      List.map_cons, List.sum_cons, -Prod.mk_zero_zero, -Prod.mk_one_one, Prod.mk.injEq]
  have hl60 : lengthInsideRect w (1, 0) (11, 0) rect60 = 3 / 5 := by
    simp only [lengthInsideRect]
    rw [lineSplit_rect60]
    norm_num [pathLen, pointInRect, rect60, h6, h10,
      List.map_cons, List.sum_cons, -Prod.mk_zero_zero, -Prod.mk_one_one, Prod.mk.injEq]
  refine ⟨hl40, ?_, ?_, hl60, ?_, ?_⟩
  · norm_num [selectWalkwaysInRect, lengthInsideRectF, fLine, hl40, List.filterMap_cons,
      -Prod.mk_zero_zero, -Prod.mk_one_one]
  · norm_num [deleteWalkwaysInPolygon, lineWithinRect, pointInRect, fLine, rect40,
      List.filter_cons, List.all_cons, -Prod.mk_zero_zero, -Prod.mk_one_one]
  · norm_num [selectWalkwaysInRect, lengthInsideRectF, fLine, hl60, List.filterMap_cons,
      -Prod.mk_zero_zero, -Prod.mk_one_one]
  · norm_num [deleteWalkwaysInPolygon, lineWithinRect, pointInRect, fLine, rect60,
      List.filter_cons, List.all_cons, -Prod.mk_zero_zero, -Prod.mk_one_one]

theorem bulkSelectionPolicies_distinct_witness :
    lengthInsideRect wDemo (1, 0) (11, 0) rect40 = 2 / 5 ∧
    selectWalkwaysInRect wDemo [fLine] rect40 = [] ∧
    deleteWalkwaysInPolygon [fLine] rect40 = [fLine] ∧
    lengthInsideRect wDemo (1, 0) (11, 0) rect60 = 3 / 5 ∧
    selectWalkwaysInRect wDemo [fLine] rect60 = ["L"] ∧
    deleteWalkwaysInPolygon [fLine] rect60 = [fLine] :=
  bulkSelectionPolicies_distinct wDemo
    (by norm_num [wDemo]) (by norm_num [wDemo]) (by norm_num [wDemo])

/-! ## Claim C10: point insertion on an empty network -/

/-- C10: with an empty segment list, `insertPointIntoGraph` returns `null`
immediately (client.js:474) and the graph is handed back untouched, for every
metric, coordinate and snap distance. -/
theorem insertPoint_empty_segments (wm w : DistFn) (g : Graph) (coord : Point)
    (maxSnapMeters : ℚ) (h : g.segments = []) :
    insertPointIntoGraph wm w g coord maxSnapMeters = (none, g) := by
  unfold insertPointIntoGraph
  rw [if_pos h]

theorem insertPoint_empty_segments_witness :
    insertPointIntoGraph wmDemo wDemo ⟨[], [], []⟩ (3, 4) 150 = (none, ⟨[], [], []⟩) :=
  insertPoint_empty_segments wmDemo wDemo ⟨[], [], []⟩ (3, 4) 150 rfl

/-! ## Claim C4: snapping onto an existing endpoint is a pure read -/

/-- C4: when the globally closest projection `best` is within the snap cutoff
and coincides (within the `1e-10` tolerance) with one of its own segment's
endpoints, `insertPointIntoGraph` returns that endpoint's existing node index
(`best.seg.a` for endpoint A, else `best.seg.b`) and the graph is returned
with node array, adjacency and segment list exactly as before. -/
theorem insertPoint_endpoint_reuses_node (wm w : DistFn) (g : Graph) (coord : Point)
    (maxSnapMeters : ℚ) (best : SnapBest)
    (hb : bestSnap wm coord g.segments = some best)
    (hcut : ¬(maxSnapMeters ≠ 0 ∧ maxSnapMeters < best.dist))
    (hend : almostEqual best.snapped best.seg.coordA = true ∨
            almostEqual best.snapped best.seg.coordB = true) :
    insertPointIntoGraph wm w g coord maxSnapMeters =
      (some (if almostEqual best.snapped best.seg.coordA then
               ⟨best.seg.a, best.seg.coordA, best.dist⟩
             else ⟨best.seg.b, best.seg.coordB, best.dist⟩), g) := by
  have hne : g.segments ≠ [] := by
    intro hnil
    rw [hnil] at hb
    simp [bestSnap] at hb
  unfold insertPointIntoGraph
  rw [if_neg hne, hb]
  simp only [if_neg hcut]
  rcases hend with hA | hB
  · rw [if_pos hA, if_pos hA]
  · by_cases hA : almostEqual best.snapped best.seg.coordA
    · rw [if_pos hA, if_pos hA]
    · simp only [hA, if_false, Bool.false_eq_true]
      rw [if_pos hB]

theorem insertPoint_endpoint_reuses_node_witness :
    insertPointIntoGraph wmDemo wDemo gSeg1 (0, 0) 150 = (some ⟨0, (0, 0), 0⟩, gSeg1) := by
  have hb : bestSnap wmDemo (0, 0) gSeg1.segments =
      some ⟨⟨0, 1, (0, 0), (1, 0)⟩, 0, (0, 0), 0⟩ := by
    norm_num [bestSnap, gSeg1, projectOnSeg, computeT, wmDemo, List.enum,
      -Prod.mk_zero_zero, Prod.mk.injEq]
  have h := insertPoint_endpoint_reuses_node wmDemo wDemo gSeg1 (0, 0) 150
    ⟨⟨0, 1, (0, 0), (1, 0)⟩, 0, (0, 0), 0⟩ hb
    (by norm_num) (Or.inl (by norm_num [almostEqual]))
  rw [h]
  norm_num [almostEqual]

/-! ## Adjacency evolution and the graph invariants (for claims C6 and C9) -/

theorem getD_set_self {α : Type} (l : List α) (i : ℕ) (x d : α) (h : i < l.length) :
    (l.set i x).getD i d = x := by
  rw [List.getD_eq_getElem?_getD, List.getElem?_set_self h]; rfl

theorem getD_set_ne {α : Type} (l : List α) (i j : ℕ) (x d : α) (h : i ≠ j) :
    (l.set i x).getD j d = l.getD j d := by
  rw [List.getD_eq_getElem?_getD, List.getElem?_set_ne h, ← List.getD_eq_getElem?_getD]

theorem pushAdj_length (adj : List (List Entry)) (i : ℕ) (e : Entry) :
    (pushAdj adj i e).length = adj.length :=
  List.length_set adj i _

theorem getD_pushAdj (adj : List (List Entry)) (i j : ℕ) (e : Entry) (hj : j < adj.length) :
    (pushAdj adj j e).getD i [] = adj.getD i [] ++ (if i = j then [e] else []) := by
  unfold pushAdj
  by_cases h : i = j
  · subst h; rw [getD_set_self _ _ _ _ hj, if_pos rfl]
  · rw [getD_set_ne _ _ _ _ _ (Ne.symm h), if_neg h, List.append_nil]

theorem pushPair_length (adj : List (List Entry)) (ia ib : ℕ) (q : ℚ) :
    (pushPair adj ia ib q).length = adj.length := by
  unfold pushPair; rw [pushAdj_length, pushAdj_length]

theorem mem_getD_pushPair (adj : List (List Entry)) (ia ib : ℕ) (q : ℚ)
    (hia : ia < adj.length) (hib : ib < adj.length) (i : ℕ) (e : Entry) :
    e ∈ (pushPair adj ia ib q).getD i [] ↔
      e ∈ adj.getD i [] ∨ (i = ia ∧ e = ⟨ib, q⟩) ∨ (i = ib ∧ e = ⟨ia, q⟩) := by
  unfold pushPair
  rw [getD_pushAdj _ _ _ _ (by rw [pushAdj_length]; exact hib), getD_pushAdj _ _ _ _ hia]
  by_cases h1 : i = ia <;> by_cases h2 : i = ib <;> simp [h1, h2]

theorem symA_pushPair (adj : List (List Entry)) (ia ib : ℕ) (q : ℚ)
    (hia : ia < adj.length) (hib : ib < adj.length) (hs : SymA adj) :
    SymA (pushPair adj ia ib q) := by
  intro u v p hm
  rw [mem_getD_pushPair _ _ _ _ hia hib] at hm ⊢
  rcases hm with hm | ⟨rfl, he⟩ | ⟨rfl, he⟩
  · exact Or.inl (hs u v p hm)
  · injection he with h1 h2; subst h1; subst h2; exact Or.inr (Or.inr ⟨rfl, rfl⟩)
  · injection he with h1 h2; subst h1; subst h2; exact Or.inr (Or.inl ⟨rfl, rfl⟩)

theorem closedA_pushPair (adj : List (List Entry)) (ia ib n : ℕ) (q : ℚ)
    (hia : ia < adj.length) (hib : ib < adj.length) (hia' : ia < n) (hib' : ib < n)
    (hc : ClosedA adj n) : ClosedA (pushPair adj ia ib q) n := by
  intro u e hm
  rw [mem_getD_pushPair _ _ _ _ hia hib] at hm
  rcases hm with hm | ⟨_, rfl⟩ | ⟨_, rfl⟩
  · exact hc u e hm
  · exact hib'
  · exact hia'

theorem nonnegA_pushPair (adj : List (List Entry)) (ia ib : ℕ) (q : ℚ)
    (hia : ia < adj.length) (hib : ib < adj.length) (hq : 0 ≤ q)
    (hn : NonnegA adj) : NonnegA (pushPair adj ia ib q) := by
  intro u e hm
  rw [mem_getD_pushPair _ _ _ _ hia hib] at hm
  rcases hm with hm | ⟨_, rfl⟩ | ⟨_, rfl⟩
  · exact hn u e hm
  · exact hq
  · exact hq

theorem mono_pushPair (adj : List (List Entry)) (ia ib : ℕ) (q : ℚ)
    (hia : ia < adj.length) (hib : ib < adj.length) (i : ℕ) (e : Entry)
    (hm : e ∈ adj.getD i []) : e ∈ (pushPair adj ia ib q).getD i [] := by
  rw [mem_getD_pushPair _ _ _ _ hia hib]; exact Or.inl hm

theorem self_mem_pushPair_left (adj : List (List Entry)) (ia ib : ℕ) (q : ℚ)
    (hia : ia < adj.length) (hib : ib < adj.length) :
    (⟨ib, q⟩ : Entry) ∈ (pushPair adj ia ib q).getD ia [] := by
  rw [mem_getD_pushPair _ _ _ _ hia hib]; exact Or.inr (Or.inl ⟨rfl, rfl⟩)

theorem self_mem_pushPair_right (adj : List (List Entry)) (ia ib : ℕ) (q : ℚ)
    (hia : ia < adj.length) (hib : ib < adj.length) :
    (⟨ia, q⟩ : Entry) ∈ (pushPair adj ia ib q).getD ib [] := by
  rw [mem_getD_pushPair _ _ _ _ hia hib]; exact Or.inr (Or.inr ⟨rfl, rfl⟩)

theorem foldl_inv {α β : Type} {P : α → Prop} {f : α → β → α} :
    ∀ {l : List β} {a : α}, P a → (∀ x ∈ l, ∀ b, P b → P (f b x)) → P (l.foldl f a) := by
  intro l
  induction l with
  | nil => intro a ha _; simpa using ha
  | cons x xs ih =>
    intro a ha h
    rw [List.foldl_cons]
    exact ih (h x (by simp) a ha) fun y hy b hb => h y (by simp [hy]) b hb

theorem adjSet_lt (adj : List (List Entry)) (i : ℕ) (l : List Entry) (h : i < adj.length) :
    adjSet adj i l = adj.set i l := by
  rw [adjSet, if_pos h]

theorem adjSet_append (adj : List (List Entry)) (l : List Entry) :
    adjSet adj adj.length l = adj ++ [l] := by
  rw [adjSet, if_neg (lt_irrefl _)]
  simp

theorem getD_append_nil (adj : List (List Entry)) (i : ℕ) :
    (adj ++ [[]]).getD i [] = adj.getD i [] := by
  rcases lt_or_ge i adj.length with h | h
  · exact List.getD_append _ _ _ _ h
  · rw [List.getD_eq_default _ _ h, List.getD_eq_getElem?_getD, List.getElem?_append_right h]
    rcases Nat.lt_or_ge (i - adj.length) 1 with h2 | h2
    · interval_cases h3 : i - adj.length
      · rfl
    · rw [List.getElem?_eq_none (by simpa using h2)]; rfl

theorem filterPair_length (adj : List (List Entry)) (ia ib : ℕ)
    (hia : ia < adj.length) (hib : ib < adj.length) :
    (filterPair adj ia ib).length = adj.length := by
  unfold filterPair
  rw [adjSet_lt _ _ _ hia, adjSet_lt _ _ _ (by rw [List.length_set]; exact hib),
    List.length_set, List.length_set]

theorem getD_filterPair (adj : List (List Entry)) (ia ib : ℕ)
    (hia : ia < adj.length) (hib : ib < adj.length) (i : ℕ) :
    (filterPair adj ia ib).getD i [] =
      if i = ib then
        ((if ib = ia then (adj.getD ia []).filter (fun e => e.toIdx ≠ ib)
          else adj.getD ib []).filter fun e => e.toIdx ≠ ia)
      else if i = ia then (adj.getD ia []).filter (fun e => e.toIdx ≠ ib)
      else adj.getD i [] := by
  unfold filterPair
  rw [adjSet_lt _ _ _ hia, adjSet_lt _ _ _ (by rw [List.length_set]; exact hib)]
  have hbase : ∀ j : ℕ, (adj.set ia ((adj.getD ia []).filter fun e => e.toIdx ≠ ib)).getD j [] =
      if j = ia then (adj.getD ia []).filter (fun e => e.toIdx ≠ ib) else adj.getD j [] := by
    intro j
    by_cases hj : j = ia
    · subst hj; rw [getD_set_self _ _ _ _ hia, if_pos rfl]
    · rw [getD_set_ne _ _ _ _ _ (Ne.symm hj), if_neg hj]
  by_cases h2 : i = ib
  · subst h2
    rw [getD_set_self _ _ _ _ (by rw [List.length_set]; exact hib), if_pos rfl, hbase]
  · rw [getD_set_ne _ _ _ _ _ (Ne.symm h2), if_neg h2, hbase]

theorem filterPair_subset (adj : List (List Entry)) (ia ib : ℕ)
    (hia : ia < adj.length) (hib : ib < adj.length) (i : ℕ) (e : Entry)
    (hm : e ∈ (filterPair adj ia ib).getD i []) : e ∈ adj.getD i [] := by
  rw [getD_filterPair _ _ _ hia hib] at hm
  split_ifs at hm with h1 h2 h3
  · subst h1; subst h2
    simp only [List.mem_filter] at hm
    exact hm.1.1
  · subst h1
    simp only [List.mem_filter] at hm
    exact hm.1
  · subst h3
    simp only [List.mem_filter] at hm
    exact hm.1
  · exact hm

theorem filterPair_at_left (adj : List (List Entry)) (ia ib : ℕ)
    (hia : ia < adj.length) (hib : ib < adj.length) (e : Entry)
    (hm : e ∈ (filterPair adj ia ib).getD ia []) : e.toIdx ≠ ib := by
  rw [getD_filterPair _ _ _ hia hib] at hm
  by_cases hab : ia = ib
  · rw [if_pos hab, if_pos hab.symm] at hm
    simp only [List.mem_filter, decide_eq_true_eq] at hm
    exact hm.1.2
  · rw [if_neg hab, if_pos rfl] at hm
    simp only [List.mem_filter, decide_eq_true_eq] at hm
    exact hm.2

theorem filterPair_at_right (adj : List (List Entry)) (ia ib : ℕ)
    (hia : ia < adj.length) (hib : ib < adj.length) (e : Entry)
    (hm : e ∈ (filterPair adj ia ib).getD ib []) : e.toIdx ≠ ia := by
  rw [getD_filterPair _ _ _ hia hib, if_pos rfl] at hm
  simp only [List.mem_filter, decide_eq_true_eq] at hm
  exact hm.2

theorem symA_filterPair (adj : List (List Entry)) (ia ib : ℕ)
    (hia : ia < adj.length) (hib : ib < adj.length) (hs : SymA adj) :
    SymA (filterPair adj ia ib) := by
  intro u v q hm
  have hm0 : (⟨v, q⟩ : Entry) ∈ adj.getD u [] := filterPair_subset _ _ _ hia hib _ _ hm
  have hvu : (⟨u, q⟩ : Entry) ∈ adj.getD v [] := hs u v q hm0
  have h_left : u = ia → v ≠ ib := by
    rintro rfl
    exact filterPair_at_left adj u ib hia hib ⟨v, q⟩ hm
  have h_right : u = ib → v ≠ ia := by
    rintro rfl
    exact filterPair_at_right adj ia u hia hib ⟨v, q⟩ hm
  rw [getD_filterPair _ _ _ hia hib]
  by_cases h1 : v = ib
  · rw [if_pos h1]
    have hune : u ≠ ia := fun h => (h_left h) h1
    by_cases h3 : ib = ia
    · rw [if_pos h3]
      simp only [List.mem_filter, decide_eq_true_eq]
      refine ⟨⟨?_, ?_⟩, hune⟩
      · rw [← h3, ← h1]; exact hvu
      · rw [h3]; exact hune
    · rw [if_neg h3]
      simp only [List.mem_filter, decide_eq_true_eq]
      exact ⟨by rw [← h1]; exact hvu, hune⟩
  · rw [if_neg h1]
    by_cases h2 : v = ia
    · rw [if_pos h2]
      have hune : u ≠ ib := fun h => (h_right h) h2
      simp only [List.mem_filter, decide_eq_true_eq]
      exact ⟨by rw [← h2]; exact hvu, hune⟩
    · rw [if_neg h2]; exact hvu

theorem findIdx?_lt_length {α : Type} {p : α → Bool} :
    ∀ {l : List α} {i : ℕ}, l.findIdx? p = some i → i < l.length := by
  intro l
  induction l with
  | nil => intro i h; simp [List.findIdx?] at h
  | cons x xs ih =>
    intro i h
    rw [List.findIdx?_cons] at h
    by_cases hp : p x = true
    · rw [if_pos hp] at h
      obtain rfl := Option.some.inj h
      simp
    · rw [if_neg hp, List.findIdx?_succ] at h
      cases hfd : xs.findIdx? p with
      | none => rw [hfd] at h; simp at h
      | some j =>
        rw [hfd] at h
        simp at h
        have := ih hfd
        simp only [List.length_cons]
        omega

theorem getNodeIndex_spec (st : Graph) (c : Point) (hwf : st.adj.length = st.nodes.length) :
    (getNodeIndex st c).1.adj.length = (getNodeIndex st c).1.nodes.length ∧
    (getNodeIndex st c).1.segments = st.segments ∧
    st.nodes.length ≤ (getNodeIndex st c).1.nodes.length ∧
    (getNodeIndex st c).2 < (getNodeIndex st c).1.nodes.length ∧
    (∀ i, (getNodeIndex st c).1.adj.getD i [] = st.adj.getD i []) ∧
    (∀ i, st.nodes.length ≤ i → i < (getNodeIndex st c).1.nodes.length →
      i = (getNodeIndex st c).2) := by
  cases hfd : st.nodes.findIdx? (fun x => x = c) with
  | some j =>
    have hg : getNodeIndex st c = (st, j) := by unfold getNodeIndex; rw [hfd]
    rw [hg]
    exact ⟨hwf, rfl, le_refl _, findIdx?_lt_length hfd, fun i => rfl,
      fun i h1 h2 => absurd h2 (not_lt.mpr h1)⟩
  | none =>
    have hg : getNodeIndex st c =
        ({ st with nodes := st.nodes ++ [c], adj := st.adj ++ [[]] }, st.nodes.length) := by
      unfold getNodeIndex; rw [hfd]
    rw [hg]
    refine ⟨by simp [hwf], rfl, by simp, by simp, fun i => getD_append_nil _ _,
      fun i h1 h2 => ?_⟩
    rw [List.length_append, List.length_cons, List.length_nil] at h2
    omega

theorem icFold_spec :
    ∀ (coords : List Point) (st : Graph) (l0 : List ℕ),
      st.adj.length = st.nodes.length →
      (∀ k ∈ l0, k < st.nodes.length) →
      ICSpec st l0 coords (coords.foldl icStep (st, l0)) := by
  intro coords
  induction coords with
  | nil =>
    intro st l0 hwf hl0
    exact ⟨hwf, rfl, le_refl _, fun i => rfl, hl0, fun k hk => hk,
      fun i h1 h2 => absurd h2 (not_lt.mpr h1), by simp⟩
  | cons c cs ih =>
    intro st l0 hwf hl0
    rw [List.foldl_cons]
    have hg := getNodeIndex_spec st c hwf
    obtain ⟨gWF, gSeg, gLen, gIdx, gGetD, gNew⟩ := hg
    have hl0' : ∀ k ∈ l0 ++ [(getNodeIndex st c).2], k < (getNodeIndex st c).1.nodes.length := by
      intro k hk
      rcases List.mem_append.mp hk with hk | hk
      · exact lt_of_lt_of_le (hl0 k hk) gLen
      · rw [List.mem_singleton.mp hk]; exact gIdx
    have hih := ih (getNodeIndex st c).1 (l0 ++ [(getNodeIndex st c).2]) gWF hl0'
    obtain ⟨ihWF, ihSeg, ihLen, ihGetD, ihBound, ihAcc, ihNew, ihCnt⟩ := hih
    show ICSpec st l0 (c :: cs) (cs.foldl icStep ((getNodeIndex st c).1, l0 ++ [(getNodeIndex st c).2]))
    refine ⟨ihWF, ihSeg.trans gSeg, le_trans gLen ihLen,
      fun i => (ihGetD i).trans (gGetD i), ihBound, ?_, ?_, ?_⟩
    · intro k hk
      exact ihAcc k (List.mem_append_left _ hk)
    · intro i h1 h2
      by_cases h : i < (getNodeIndex st c).1.nodes.length
      · have := gNew i h1 h
        exact ihAcc _ (this ▸ List.mem_append_right _ (by simp))
      · exact ihNew i (not_lt.mp h) h2
    · rw [ihCnt]
      simp only [List.length_append, List.length_cons, List.length_nil]
      omega

theorem addEdge_spec (w : DistFn) (st : Graph) (ia ib : ℕ) (A B : Point)
    (hia : ia < st.adj.length) (hib : ib < st.adj.length) :
    (addEdge w st ia ib A B).nodes = st.nodes ∧
    (addEdge w st ia ib A B).adj.length = st.adj.length ∧
    (∀ i e, e ∈ (addEdge w st ia ib A B).adj.getD i [] ↔
      e ∈ st.adj.getD i [] ∨ (i = ia ∧ e = ⟨ib, w A B⟩) ∨ (i = ib ∧ e = ⟨ia, w A B⟩)) ∧
    (addEdge w st ia ib A B).segments = st.segments ++ [⟨ia, ib, A, B⟩] :=
  ⟨rfl, pushPair_length _ _ _ _, fun i e => mem_getD_pushPair _ _ _ _ hia hib i e, rfl⟩

theorem addEdges_spec (w : DistFn) :
    ∀ (l : List (ℕ × Point)) (st : Graph),
      st.adj.length = st.nodes.length →
      (∀ x ∈ l, x.1 < st.nodes.length) →
      AESpec w st l (addEdges w st l) := by
  intro l
  induction l with
  | nil =>
    intro st hwf hl
    exact ⟨rfl, rfl, fun _ _ h => h, fun _ h => h, fun _ h => Or.inl h, id, id,
      fun _ h => h, fun h2 => absurd h2 (by simp)⟩
  | cons x xs ih =>
    cases xs with
    | nil =>
      intro st hwf hl
      exact ⟨rfl, rfl, fun _ _ h => h, fun _ h => h, fun _ h => Or.inl h, id, id,
        fun _ h => h, fun h2 => absurd h2 (by simp)⟩
    | cons y rest =>
      intro st hwf hl
      have hxa : x.1 < st.nodes.length := hl x (by simp)
      have hya : y.1 < st.nodes.length := hl y (by simp)
      have hxa' : x.1 < st.adj.length := by rw [hwf]; exact hxa
      have hya' : y.1 < st.adj.length := by rw [hwf]; exact hya
      obtain ⟨eN, eL, eM, eS⟩ := addEdge_spec w st x.1 y.1 x.2 y.2 hxa' hya'
      have hwf' : (addEdge w st x.1 y.1 x.2 y.2).adj.length =
          (addEdge w st x.1 y.1 x.2 y.2).nodes.length := by rw [eL, eN, hwf]
      have hl' : ∀ z ∈ y :: rest, z.1 < (addEdge w st x.1 y.1 x.2 y.2).nodes.length := by
        intro z hz
        rw [eN]
        exact hl z (by simp [hz])
      obtain ⟨ihN, ihL, ihM, ihS, ihO, ihSym, ihC, ihNn, ihCov⟩ :=
        ih (addEdge w st x.1 y.1 x.2 y.2) hwf' hl'
      show AESpec w st (x :: y :: rest) (addEdges w (addEdge w st x.1 y.1 x.2 y.2) (y :: rest))
      refine ⟨?_, ?_, ?_, ?_, ?_, ?_, ?_, ?_, ?_⟩
      · rw [ihN, eN]
      · rw [ihL, eL]
      · intro i e h
        exact ihM i e ((eM i e).mpr (Or.inl h))
      · intro sg h
        exact ihS sg (by rw [eS]; exact List.mem_append_left _ h)
      · intro sg h
        rcases ihO sg h with h1 | h1
        · rw [eS] at h1
          rcases List.mem_append.mp h1 with h2 | h2
          · exact Or.inl h2
          · rw [List.mem_singleton.mp h2]
            exact Or.inr ⟨hxa, hya⟩
        · rw [eN] at h1
          exact Or.inr h1
      · intro hsym
        exact ihSym (symA_pushPair _ _ _ _ hxa' hya' hsym)
      · intro hc
        have h1 : ClosedA (addEdge w st x.1 y.1 x.2 y.2).adj st.nodes.length :=
          closedA_pushPair _ _ _ _ _ hxa' hya' hxa hya hc
        have h2 := ihC (by rw [eN]; exact h1)
        rw [eN] at h2
        exact h2
      · intro hw hn
        exact ihNn hw (nonnegA_pushPair _ _ _ _ hxa' hya' (hw _ _) hn)
      · intro _ z hz
        rcases List.mem_cons.mp hz with rfl | hz2
        · constructor
          · exact List.ne_nil_of_mem
              (ihM _ _ ((eM z.1 ⟨y.1, w z.2 y.2⟩).mpr (Or.inr (Or.inl ⟨rfl, rfl⟩))))
          · exact ⟨⟨z.1, y.1, z.2, y.2⟩,
              ihS _ (by rw [eS]; exact List.mem_append_right _ (by simp)), Or.inl rfl⟩
        · cases rest with
          | nil =>
            have hzy : z = y := by simpa using hz2
            subst hzy
            constructor
            · exact List.ne_nil_of_mem
                (ihM _ _ ((eM z.1 ⟨x.1, w x.2 z.2⟩).mpr (Or.inr (Or.inr ⟨rfl, rfl⟩))))
            · exact ⟨⟨x.1, z.1, x.2, z.2⟩,
                ihS _ (by rw [eS]; exact List.mem_append_right _ (by simp)), Or.inr rfl⟩
          | cons r rest' =>
            exact ihCov (by simp only [List.length_cons]; omega) z hz2

theorem addWalkway_ginv (w : DistFn) (st : Graph) (coords : List Point)
    (hg : GInv st) : GInv (addWalkway w st coords) := by
  by_cases hlen : coords.length < 2
  · rw [addWalkway, if_pos hlen]
    exact hg
  · simp only [addWalkway, if_neg hlen]
    have hic : ICSpec st [] coords (indexCoords st coords) :=
      icFold_spec coords st [] hg.wf (by simp)
    unfold ICSpec at hic
    obtain ⟨icWF, icSeg, icLen, icGetD, icBound, _, icNew, icCnt⟩ := hic
    have hlzip : ∀ x ∈ (indexCoords st coords).2.zip coords,
        x.1 < (indexCoords st coords).1.nodes.length := by
      intro x hx
      exact icBound x.1 (List.of_mem_zip hx).1
    have hae := addEdges_spec w ((indexCoords st coords).2.zip coords)
      (indexCoords st coords).1 icWF hlzip
    unfold AESpec at hae
    obtain ⟨aeN, aeL, aeM, aeS, aeO, aeSym, aeC, _, aeCov⟩ := hae
    have hzlen : ((indexCoords st coords).2.zip coords).length = coords.length := by
      rw [List.length_zip, icCnt]
      simp
    have h2l : 2 ≤ ((indexCoords st coords).2.zip coords).length := by
      rw [hzlen]; omega
    have hmapfst : ((indexCoords st coords).2.zip coords).map Prod.fst =
        (indexCoords st coords).2 :=
      List.map_fst_zip _ _ (by rw [icCnt]; simp)
    refine ⟨?_, ?_, ?_, ?_, ?_⟩
    · rw [aeL, aeN]
      exact icWF
    · intro sg hsg
      rw [aeN]
      rcases aeO sg hsg with h1 | h1
      · rw [icSeg] at h1
        have h2 := hg.segValid sg h1
        exact ⟨lt_of_lt_of_le h2.1 icLen, lt_of_lt_of_le h2.2 icLen⟩
      · exact h1
    · apply aeSym
      intro u v q hm
      rw [icGetD] at hm
      rw [icGetD]
      exact hg.sym u v q hm
    · have hC : ClosedA (addEdges w (indexCoords st coords).1
          ((indexCoords st coords).2.zip coords)).adj (indexCoords st coords).1.nodes.length :=
        aeC (fun u e hm => by
          rw [icGetD] at hm
          exact lt_of_lt_of_le (hg.closed u e hm) icLen)
      intro u e hm
      rw [aeN]
      exact hC u e hm
    · intro i hi
      rw [aeN] at hi
      by_cases hold : i < st.nodes.length
      · obtain ⟨hne, sg, hsg, hor⟩ := hg.covered i hold
        constructor
        · obtain ⟨e, he⟩ := List.exists_mem_of_ne_nil _ hne
          exact List.ne_nil_of_mem (aeM i e (by rw [icGetD]; exact he))
        · exact ⟨sg, aeS sg (by rw [icSeg]; exact hsg), hor⟩
      · have hmem : i ∈ (indexCoords st coords).2 := icNew i (not_lt.mp hold) hi
        have hmm : i ∈ ((indexCoords st coords).2.zip coords).map Prod.fst := by
          rw [hmapfst]; exact hmem
        obtain ⟨z, hz, hzi⟩ := List.mem_map.mp hmm
        have hcov := aeCov h2l z hz
        rw [hzi] at hcov
        exact hcov

theorem connectPair_ginv (wm : DistFn) (tol : ℚ) (st : Graph) (i j : ℕ)
    (hg : GInv st) (hi : i < st.nodes.length) (hj : j < st.nodes.length) :
    GInv (connectPair wm tol st i j) ∧ (connectPair wm tol st i j).nodes = st.nodes := by
  have hi' : i < st.adj.length := by rw [hg.wf]; exact hi
  have hj' : j < st.adj.length := by rw [hg.wf]; exact hj
  simp only [connectPair]
  split_ifs with hd
  · refine ⟨⟨?_, hg.segValid, ?_, ?_, ?_⟩, rfl⟩
    · rw [pushPair_length]
      exact hg.wf
    · exact symA_pushPair _ _ _ _ hi' hj' hg.sym
    · exact closedA_pushPair _ _ _ _ _ hi' hj' hi hj hg.closed
    · intro k hk
      obtain ⟨hne, sg, hsg, hor⟩ := hg.covered k hk
      constructor
      · obtain ⟨e, he⟩ := List.exists_mem_of_ne_nil _ hne
        exact List.ne_nil_of_mem (mono_pushPair _ _ _ _ hi' hj' k e he)
      · exact ⟨sg, hsg, hor⟩
  · exact ⟨hg, rfl⟩

theorem ginv_empty : GInv ⟨[], [], []⟩ := by
  refine ⟨rfl, by simp, ?_, ?_, fun i hi => absurd hi (by simp)⟩
  · intro u v q hm
    simp [List.getD] at hm
  · intro u e hm
    simp [List.getD] at hm

/-- `buildWalkwayGraph` establishes the full graph invariant, for every choice
of metrics and every input. -/
theorem ginv_build (w wm : DistFn) (raw : List RawLine) :
    GInv (buildWalkwayGraph w wm raw) := by
  simp only [buildWalkwayGraph]
  set st0 := (refineAll (extractWalkways raw)).foldl (addWalkway w) ⟨[], [], []⟩ with hst0
  have hfold : GInv st0 :=
    foldl_inv ginv_empty (fun coords _ st hst => addWalkway_ginv w st coords hst)
  simp only [connectNearbyNodes]
  refine (foldl_inv (P := fun g => GInv g ∧ g.nodes = st0.nodes) ⟨hfold, rfl⟩ ?_).1
  intro i hi b hb
  refine foldl_inv (P := fun g => GInv g ∧ g.nodes = st0.nodes) hb ?_
  intro j hj b2 hb2
  rw [List.mem_range] at hi
  rw [List.mem_range'_1] at hj
  have hcp := connectPair_ginv wm 2 b2 i j hb2.1
    (by rw [hb2.2]; omega) (by rw [hb2.2]; omega)
  exact ⟨hcp.1, by rw [hcp.2, hb2.2]⟩

/-- C6: for every input walkway set and any metrics, every node index produced
by the Network Builder has a nonempty adjacency list and appears as an
endpoint of at least one segment of the resulting graph — the builder never
produces an orphan node. -/
theorem no_orphan_nodes (w wm : DistFn) (raw : List RawLine) (i : ℕ)
    (hi : i < (buildWalkwayGraph w wm raw).nodes.length) :
    adjGet (buildWalkwayGraph w wm raw) i ≠ [] ∧
    ∃ sg ∈ (buildWalkwayGraph w wm raw).segments, i = sg.a ∨ i = sg.b :=
  (ginv_build w wm raw).covered i hi

theorem no_orphan_nodes_witness :
    0 < (buildWalkwayGraph wDemo wmDemo crossFC).nodes.length ∧
    (adjGet (buildWalkwayGraph wDemo wmDemo crossFC) 0 ≠ [] ∧
      ∃ sg ∈ (buildWalkwayGraph wDemo wmDemo crossFC).segments, 0 = sg.a ∨ 0 = sg.b) := by
  have hb := crossFC_build wDemo wmDemo (fun p q hpq => by norm_num [wmDemo, hpq])
  have h5 : 0 < (buildWalkwayGraph wDemo wmDemo crossFC).nodes.length := by
    rw [hb]
    norm_num [gCross]
  exact ⟨h5, no_orphan_nodes wDemo wmDemo crossFC 0 h5⟩

theorem bestSnap_getElem (wm : DistFn) (target : Point) (segs : List Seg) (b : SnapBest)
    (h : bestSnap wm target segs = some b) : segs[b.segIndex]? = some b.seg := by
  have hP := foldl_inv
    (P := fun acc : Option SnapBest => ∀ b', acc = some b' → segs[b'.segIndex]? = some b'.seg)
    (l := segs.enum)
    (a := (none : Option SnapBest))
    (f := fun best x =>
      let proj := projectOnSeg x.2.coordA x.2.coordB target
      let d := wm target proj
      match best with
      | none => some ⟨x.2, x.1, proj, d⟩
      | some bb => if d < bb.dist then some ⟨x.2, x.1, proj, d⟩ else some bb)
    (fun b' hb' => by simp at hb')
    (by
      intro x hx acc hacc b' hb'
      have hxe : segs[x.1]? = some x.2 := List.mem_enum_iff_getElem?.mp hx
      cases acc with
      | none =>
        simp only at hb'
        obtain rfl := Option.some.inj hb'
        exact hxe
      | some bb =>
        simp only at hb'
        split_ifs at hb' with hlt
        · obtain rfl := Option.some.inj hb'
          exact hxe
        · obtain rfl := Option.some.inj hb'
          exact hacc bb rfl)
  exact hP b h

theorem mem_eraseIdx_or {α : Type} :
    ∀ (l : List α) (i : ℕ) (x : α), x ∈ l → x ∈ l.eraseIdx i ∨ l[i]? = some x := by
  intro l
  induction l with
  | nil => intro i x hx; simp at hx
  | cons a as ih =>
    intro i x hx
    cases i with
    | zero =>
      rcases List.mem_cons.mp hx with rfl | hx2
      · exact Or.inr (by simp)
      · exact Or.inl (by simpa using hx2)
    | succ n =>
      rcases List.mem_cons.mp hx with rfl | hx2
      · exact Or.inl (by simp [List.eraseIdx])
      · rcases ih n x hx2 with h | h
        · exact Or.inl (by simp [List.eraseIdx, h])
        · exact Or.inr (by simpa using h)

/-- The structural branch of point insertion preserves the graph invariant. -/
theorem insertCore_ginv (w : DistFn) (g : Graph) (best : SnapBest)
    (hg : GInv g) (hseg : g.segments[best.segIndex]? = some best.seg) :
    GInv (insertCore w g best) := by
  have hmem : best.seg ∈ g.segments := List.getElem?_mem hseg
  obtain ⟨hA, hB⟩ := hg.segValid best.seg hmem
  set n := g.nodes.length with hn
  set ia := best.seg.a with hia
  set ib := best.seg.b with hib
  set dA := w best.seg.coordA best.snapped with hdA
  set dB := w best.snapped best.seg.coordB with hdB
  have hadj0 : adjSet g.adj n [] = g.adj ++ [[]] := by
    rw [hn, ← hg.wf, adjSet_append]
  set adj0 := adjSet g.adj n [] with hadj0d
  have len0 : adj0.length = n + 1 := by
    rw [hadj0]
    simp [hg.wf, ← hn]
  have getD0 : ∀ i, adj0.getD i [] = g.adj.getD i [] := by
    intro i
    rw [hadj0]
    exact getD_append_nil _ i
  have hia0 : ia < adj0.length := by rw [len0]; omega
  have hib0 : ib < adj0.length := by rw [len0]; omega
  have sym0 : SymA adj0 := by
    intro u v q hm
    rw [getD0] at hm
    rw [getD0]
    exact hg.sym u v q hm
  set adj2 := filterPair adj0 ia ib with hadj2
  have len2 : adj2.length = n + 1 := by
    rw [hadj2, filterPair_length _ _ _ hia0 hib0, len0]
  have sym2 : SymA adj2 := symA_filterPair adj0 ia ib hia0 hib0 sym0
  have sub2 : ∀ i e, e ∈ adj2.getD i [] → e ∈ g.adj.getD i [] := by
    intro i e he
    rw [← getD0]
    exact filterPair_subset adj0 ia ib hia0 hib0 i e he
  have untouched2 : ∀ i, i ≠ ia → i ≠ ib → adj2.getD i [] = g.adj.getD i [] := by
    intro i h1 h2
    rw [hadj2, getD_filterPair adj0 ia ib hia0 hib0 i, if_neg h2, if_neg h1, getD0]
  have hia2 : ia < adj2.length := by rw [len2]; omega
  have hib2 : ib < adj2.length := by rw [len2]; omega
  have hn2 : n < adj2.length := by rw [len2]; omega
  set adj3 := pushPair adj2 ia n dA with hadj3
  have len3 : adj3.length = n + 1 := by rw [hadj3, pushPair_length, len2]
  have sym3 : SymA adj3 := symA_pushPair adj2 ia n dA hia2 hn2 sym2
  have hib3 : ib < adj3.length := by rw [len3]; omega
  have hn3 : n < adj3.length := by rw [len3]; omega
  set adj4 := pushPair adj3 ib n dB with hadj4
  have len4 : adj4.length = n + 1 := by rw [hadj4, pushPair_length, len3]
  have sym4 : SymA adj4 := symA_pushPair adj3 ib n dB hib3 hn3 sym3
  have mem4 : ∀ i e, e ∈ adj4.getD i [] ↔
      ((e ∈ adj2.getD i [] ∨ (i = ia ∧ e = ⟨n, dA⟩) ∨ (i = n ∧ e = ⟨ia, dA⟩)) ∨
        (i = ib ∧ e = ⟨n, dB⟩) ∨ (i = n ∧ e = ⟨ib, dB⟩)) := by
    intro i e
    rw [hadj4, mem_getD_pushPair adj3 ib n dB hib3 hn3, hadj3,
      mem_getD_pushPair adj2 ia n dA hia2 hn2]
  have hlen' : (g.nodes ++ [best.snapped]).length = n + 1 := by
    rw [List.length_append, ← hn]
    rfl
  refine ⟨?_, ?_, ?_, ?_, ?_⟩
  · show adj4.length = (g.nodes ++ [best.snapped]).length
    rw [len4, hlen']
  · intro sg hsg
    have hsg' : sg ∈ g.segments.eraseIdx best.segIndex ++
        [⟨ia, n, best.seg.coordA, best.snapped⟩,
          ⟨n, ib, best.snapped, best.seg.coordB⟩] := hsg
    show sg.a < (g.nodes ++ [best.snapped]).length ∧ sg.b < (g.nodes ++ [best.snapped]).length
    rw [hlen']
    rcases List.mem_append.mp hsg' with h | h
    · have h2 := hg.segValid sg (List.mem_of_mem_eraseIdx h)
      rw [← hn] at h2
      omega
    · simp only [List.mem_cons, List.mem_singleton, List.not_mem_nil, or_false] at h
      rcases h with rfl | rfl
      · exact ⟨by show ia < n + 1; omega, by show n < n + 1; omega⟩
      · exact ⟨by show n < n + 1; omega, by show ib < n + 1; omega⟩
  · show SymA adj4
    exact sym4
  · intro u e he
    have he' : e ∈ adj4.getD u [] := he
    show e.toIdx < (g.nodes ++ [best.snapped]).length
    rw [hlen']
    rcases (mem4 u e).mp he' with (h | ⟨_, rfl⟩ | ⟨_, rfl⟩) | (⟨_, rfl⟩ | ⟨_, rfl⟩)
    · have h2 : e.toIdx < n := hg.closed u e (sub2 u e h)
      omega
    · show n < n + 1
      omega
    · show ia < n + 1
      omega
    · show n < n + 1
      omega
    · show ib < n + 1
      omega
  · intro i hi
    have hi' : i < (g.nodes ++ [best.snapped]).length := hi
    rw [hlen'] at hi'
    show adj4.getD i [] ≠ [] ∧
      ∃ sg ∈ g.segments.eraseIdx best.segIndex ++
        [⟨ia, n, best.seg.coordA, best.snapped⟩,
          ⟨n, ib, best.snapped, best.seg.coordB⟩], i = sg.a ∨ i = sg.b
    by_cases hin : i = n
    · constructor
      · exact List.ne_nil_of_mem
          ((mem4 i ⟨ia, dA⟩).mpr (Or.inl (Or.inr (Or.inr ⟨hin, rfl⟩))))
      · exact ⟨⟨ia, n, best.seg.coordA, best.snapped⟩,
          List.mem_append_right _ (by simp), Or.inr hin⟩
    · have hiltn : i < n := by omega
      obtain ⟨hne, sg0, hsg0, hor0⟩ := hg.covered i hiltn
      constructor
      · by_cases hiia : i = ia
        · exact List.ne_nil_of_mem
            ((mem4 i ⟨n, dA⟩).mpr (Or.inl (Or.inr (Or.inl ⟨hiia, rfl⟩))))
        · by_cases hiib : i = ib
          · exact List.ne_nil_of_mem
              ((mem4 i ⟨n, dB⟩).mpr (Or.inr (Or.inl ⟨hiib, rfl⟩)))
          · obtain ⟨e, he⟩ := List.exists_mem_of_ne_nil _ hne
            exact List.ne_nil_of_mem ((mem4 i e).mpr
              (Or.inl (Or.inl (by rw [untouched2 i hiia hiib]; exact he))))
      · rcases mem_eraseIdx_or g.segments best.segIndex sg0 hsg0 with h | h
        · exact ⟨sg0, List.mem_append_left _ h, hor0⟩
        · have heq : sg0 = best.seg := by
            rw [hseg] at h
            exact (Option.some.inj h).symm
          subst heq
          rcases hor0 with h1 | h1
          · exact ⟨⟨ia, n, best.seg.coordA, best.snapped⟩,
              List.mem_append_right _ (by simp), Or.inl h1⟩
          · exact ⟨⟨n, ib, best.snapped, best.seg.coordB⟩,
              List.mem_append_right _ (by simp), Or.inr h1⟩
  

/-- Point insertion preserves the graph invariant, in every branch. -/
theorem ginv_insert (wm w : DistFn) (g : Graph) (coord : Point) (msm : ℚ)
    (hg : GInv g) : GInv (insertPointIntoGraph wm w g coord msm).2 := by
  by_cases h1 : g.segments = []
  · simp only [insertPointIntoGraph, if_pos h1]
    exact hg
  · simp only [insertPointIntoGraph, if_neg h1]
    cases hbs : bestSnap wm coord g.segments with
    | none =>
      simp only [hbs]
      exact hg
    | some best =>
      simp only [hbs]
      split_ifs with h2 h3 h4
      · exact hg
      · exact hg
      · exact hg
      · exact insertCore_ginv w g best hg (bestSnap_getElem wm coord g.segments best hbs)

/-- C9 (implicit): the undirected-adjacency invariant. After `buildWalkwayGraph`
(including the nearby-node consolidation pass), every adjacency entry
`{to: v, weight: q}` of a node `u` has a matching `{to: u, weight: q}` entry in
the adjacency list of `v`. The build in fact establishes the full structural
invariant `GInv`, and `insertPointIntoGraph` (with any metrics, coordinate and
snap cutoff, in every branch — so in particular after every successful call)
preserves both the symmetry and `GInv`, hence the invariant holds after any
chain of point insertions into a built graph. -/
theorem adjacency_undirected (w wm wi wmi : DistFn) (raw : List RawLine) :
    (∀ u v q, (⟨v, q⟩ : Entry) ∈ adjGet (buildWalkwayGraph w wm raw) u →
      (⟨u, q⟩ : Entry) ∈ adjGet (buildWalkwayGraph w wm raw) v) ∧
    GInv (buildWalkwayGraph w wm raw) ∧
    ∀ g coord msm, GInv g →
      (∀ u v q, (⟨v, q⟩ : Entry) ∈ adjGet (insertPointIntoGraph wmi wi g coord msm).2 u →
        (⟨u, q⟩ : Entry) ∈ adjGet (insertPointIntoGraph wmi wi g coord msm).2 v) ∧
      GInv (insertPointIntoGraph wmi wi g coord msm).2 :=
  ⟨(ginv_build w wm raw).sym, ginv_build w wm raw,
    fun g coord msm hg =>
      ⟨(ginv_insert wmi wi g coord msm hg).sym, ginv_insert wmi wi g coord msm hg⟩⟩

theorem adjacency_undirected_witness :
    (⟨0, 5⟩ : Entry) ∈ adjGet (buildWalkwayGraph wDemo wmDemo crossFC) 1 :=
  (adjacency_undirected wDemo wmDemo wDemo wmDemo crossFC).1 0 1 5 (by
    rw [crossFC_build wDemo wmDemo (fun p q hpq => by norm_num [wmDemo, hpq])]
    norm_num [adjGet, gCross, wDemo, Entry.mk.injEq, -Prod.mk_zero_zero])

theorem infLE_refl (x : JDist) : infLE x x := by
  cases x <;> simp [infLE]

theorem infLE_trans {x y z : JDist} (h1 : infLE x y) (h2 : infLE y z) : infLE x z := by
  cases x <;> cases y <;> cases z <;> simp_all [infLE] <;> linarith

theorem not_infLT_iff {x y : JDist} : ¬ infLT x y ↔ infLE y x := by
  cases x <;> cases y <;> simp [infLT, infLE]

theorem infLT_infLE {x y : JDist} (h : infLT x y) : infLE x y := by
  cases x <;> cases y <;> simp_all [infLT, infLE]
  linarith

theorem infLE_some {x : JDist} {d : ℚ} (h : infLE x (some d)) :
    ∃ dx, x = some dx ∧ dx ≤ d := by
  cases x with
  | none => simp [infLE] at h
  | some dx => exact ⟨dx, rfl, h⟩

theorem not_infLT_infAdd_self (x : JDist) (q : ℚ) (hq : 0 ≤ q) :
    ¬ infLT (infAdd x q) x := by
  cases x <;> simp [infAdd, infLT] <;> linarith

theorem walk_nonneg {g : Graph} {a v : ℕ} {d : ℚ} (hnn : NonnegA g.adj)
    (h : HasWalk g a v d) : 0 ≤ d := by
  induction h with
  | base => exact le_refl 0
  | step e' hw' he' ih =>
    have := hnn _ e' he'
    linarith

theorem walk_lt {g : Graph} {a v : ℕ} {d : ℚ} {n : ℕ} (hclosed : ClosedA g.adj n)
    (ha : a < n) (h : HasWalk g a v d) : v < n := by
  induction h with
  | base => exact ha
  | step e' hw' he' ih => exact hclosed _ e' he'

theorem walk_cons {g : Graph} {u v x : ℕ} {q d : ℚ}
    (he : (⟨v, q⟩ : Entry) ∈ adjGet g u) (h : HasWalk g v x d) : HasWalk g u x (d + q) := by
  induction h with
  | base => exact HasWalk.step ⟨v, q⟩ HasWalk.base he
  | step e' hw' he' ih =>
    have h2 := HasWalk.step e' ih he'
    rw [add_right_comm]
    exact h2

theorem walk_reverse {g : Graph} {a v : ℕ} {d : ℚ} (hsym : SymA g.adj)
    (h : HasWalk g a v d) : HasWalk g v a d := by
  induction h with
  | base => exact HasWalk.base
  | step e' hw' he' ih =>
    have hrev := hsym _ e'.toIdx e'.weight he'
    exact walk_cons hrev ih

theorem infLT_ne_none {x y : JDist} (h : infLT x y) : x ≠ none := by
  cases x
  · simp [infLT] at h
  · simp

theorem selectMin_go (s : DState) :
    ∀ (l : List ℕ) (acc : Option ℕ × JDist),
      (∀ u, acc.1 = some u → s.visited u = false ∧ s.dist u = acc.2 ∧ acc.2 ≠ none) →
      (acc.1 = none → acc.2 = none) →
      SMSpec s l acc (l.foldl (fun acc i =>
        if s.visited i = false ∧ infLT (s.dist i) acc.2 then (some i, s.dist i) else acc) acc) := by
  intro l
  induction l with
  | nil =>
    intro acc hacc hacc2
    exact ⟨infLE_refl _,
      fun u hu => ⟨(hacc u hu).1, (hacc u hu).2.1, (hacc u hu).2.2, Or.inl hu⟩,
      fun hn => ⟨hacc2 hn, hn⟩,
      fun j hj => absurd hj (List.not_mem_nil j)⟩
  | cons i l' ih =>
    intro acc hacc hacc2
    rw [List.foldl_cons]
    by_cases hcond : s.visited i = false ∧ infLT (s.dist i) acc.2
    · rw [if_pos hcond]
      have hne : s.dist i ≠ none := infLT_ne_none hcond.2
      obtain ⟨ih1, ih2, ih3, ih4⟩ := ih (some i, s.dist i)
        (fun u hu => by
          obtain rfl := Option.some.inj hu
          exact ⟨hcond.1, rfl, hne⟩)
        (by simp)
      refine ⟨infLE_trans ih1 (infLT_infLE hcond.2), ?_, ?_, ?_⟩
      · intro u hu
        obtain ⟨h1, h2, h3, h4⟩ := ih2 u hu
        refine ⟨h1, h2, h3, Or.inr ?_⟩
        rcases h4 with h4 | h4
        · obtain rfl := Option.some.inj h4
          exact List.mem_cons_self _ _
        · exact List.mem_cons_of_mem _ h4
      · intro hcn
        exact absurd (ih3 hcn).2 (by simp)
      · intro j hj hvj
        rcases List.mem_cons.mp hj with rfl | hj2
        · exact not_infLT_iff.mpr ih1
        · exact ih4 j hj2 hvj
    · rw [if_neg hcond]
      obtain ⟨ih1, ih2, ih3, ih4⟩ := ih acc hacc hacc2
      refine ⟨ih1, ?_, ih3, ?_⟩
      · intro u hu
        obtain ⟨h1, h2, h3, h4⟩ := ih2 u hu
        refine ⟨h1, h2, h3, ?_⟩
        rcases h4 with h4 | h4
        · exact Or.inl h4
        · exact Or.inr (List.mem_cons_of_mem _ h4)
      · intro j hj hvj
        rcases List.mem_cons.mp hj with rfl | hj2
        · have hnl : ¬ infLT (s.dist j) acc.2 := by
            intro hl
            exact hcond ⟨hvj, hl⟩
          exact not_infLT_iff.mpr (infLE_trans ih1 (not_infLT_iff.mp hnl))
        · exact ih4 j hj2 hvj

theorem selectMin_some (n : ℕ) (s : DState) (u : ℕ) (dv : JDist)
    (h : selectMin n s = (some u, dv)) :
    s.visited u = false ∧ s.dist u = dv ∧ dv ≠ none ∧ u < n ∧
    (∀ j, j < n → s.visited j = false → ¬ infLT (s.dist j) dv) := by
  have hgo : SMSpec s (List.range n) (none, none) (selectMin n s) :=
    selectMin_go s (List.range n) (none, none) (by simp) (by simp)
  rw [h] at hgo
  obtain ⟨_, h2, _, h4⟩ := hgo
  obtain ⟨hv, hd, hne, hprov⟩ := h2 u rfl
  refine ⟨hv, hd, hne, ?_, fun j hj hvj => h4 j (List.mem_range.mpr hj) hvj⟩
  rcases hprov with hp | hp
  · exact absurd hp (by simp)
  · exact List.mem_range.mp hp

theorem selectMin_none (n : ℕ) (s : DState) (h : (selectMin n s).1 = none) :
    ∀ j, j < n → s.visited j = false → s.dist j = none := by
  have hgo : SMSpec s (List.range n) (none, none) (selectMin n s) :=
    selectMin_go s (List.range n) (none, none) (by simp) (by simp)
  obtain ⟨_, _, h3, h4⟩ := hgo
  have hr2 := (h3 h).1
  intro j hj hvj
  have hm := h4 j (List.mem_range.mpr hj) hvj
  rw [hr2] at hm
  cases hd : s.dist j with
  | none => rfl
  | some d =>
    rw [hd] at hm
    exact absurd trivial hm

theorem relaxList (u : ℕ) :
    ∀ (l : List Entry) (s : DState), (∀ e ∈ l, 0 ≤ e.weight) →
      RLSpec u l s (l.foldl (relaxEdge u) s) := by
  intro l
  induction l with
  | nil =>
    intro s _
    exact ⟨rfl, rfl, fun v => infLE_refl _, fun v => Or.inl rfl,
      fun e he => absurd he (List.not_mem_nil e)⟩
  | cons e l' ih =>
    intro s hnn
    rw [List.foldl_cons]
    by_cases hf : infLT (infAdd (s.dist u) e.weight) (s.dist e.toIdx)
    · have hs1 : relaxEdge u s e = { s with
          dist := fun i => if i = e.toIdx then infAdd (s.dist u) e.weight else s.dist i,
          prev := fun i => if i = e.toIdx then some u else s.prev i } := by
        simp only [relaxEdge]
        rw [if_pos hf]
      have hv1 : (relaxEdge u s e).visited = s.visited := by rw [hs1]
      have hd1 : ∀ v, (relaxEdge u s e).dist v =
          if v = e.toIdx then infAdd (s.dist u) e.weight else s.dist v := by
        rw [hs1]
        intro v
        rfl
      have hdu : (relaxEdge u s e).dist u = s.dist u := by
        rw [hd1 u]
        by_cases hue : u = e.toIdx
        · exfalso
          rw [← hue] at hf
          exact not_infLT_infAdd_self _ _ (hnn e (by simp)) hf
        · rw [if_neg hue]
      obtain ⟨ih1, ih2, ih3, ih4, ih5⟩ := ih (relaxEdge u s e) (fun e' he' => hnn e' (by simp [he']))
      have hle1 : ∀ v, infLE ((relaxEdge u s e).dist v) (s.dist v) := by
        intro v
        rw [hd1 v]
        by_cases hv : v = e.toIdx
        · rw [if_pos hv, hv]
          exact infLT_infLE hf
        · rw [if_neg hv]
          exact infLE_refl _
      refine ⟨ih1.trans hv1, ih2.trans hdu, fun v => infLE_trans (ih3 v) (hle1 v), ?_, ?_⟩
      · intro v
        rcases ih4 v with h | ⟨e', he', hei, heq⟩
        · rw [hd1 v] at h
          by_cases hv : v = e.toIdx
          · rw [if_pos hv] at h
            exact Or.inr ⟨e, by simp, hv.symm, h⟩
          · rw [if_neg hv] at h
            exact Or.inl h
        · rw [hdu] at heq
          exact Or.inr ⟨e', by simp [he'], hei, heq⟩
      · intro e2 he2
        rcases List.mem_cons.mp he2 with he1 | he1
        · subst he1
          have h2 := ih3 e2.toIdx
          rw [hd1 e2.toIdx, if_pos rfl] at h2
          exact not_infLT_iff.mpr h2
        · have h2 := ih5 e2 he1
          rw [hdu] at h2
          exact h2
    · have hs1 : relaxEdge u s e = s := by
        simp only [relaxEdge]
        rw [if_neg hf]
      rw [hs1]
      obtain ⟨ih1, ih2, ih3, ih4, ih5⟩ := ih s (fun e' he' => hnn e' (by simp [he']))
      refine ⟨ih1, ih2, ih3, ?_, ?_⟩
      · intro v
        rcases ih4 v with h | ⟨e', he', hei, heq⟩
        · exact Or.inl h
        · exact Or.inr ⟨e', by simp [he'], hei, heq⟩
      · intro e2 he2
        rcases List.mem_cons.mp he2 with he1 | he1
        · subst he1
          exact not_infLT_iff.mpr (infLE_trans (ih3 e2.toIdx) (not_infLT_iff.mp hf))
        · exact ih5 e2 he1

theorem relaxAll_spec (g : Graph) (u : ℕ) (s : DState) (hnn : NonnegA g.adj) :
    RLSpec u (adjGet g u) s (relaxAll g u s) :=
  relaxList u (adjGet g u) s (fun e he => hnn u e he)

theorem dinv_init (g : Graph) (a n : ℕ) (ha : a < n) : DInv g a n (dInit a) := by
  refine ⟨?_, ?_, ?_, ⟨0, by simp [dInit], le_refl 0⟩, ?_⟩
  · intro v d hd
    simp only [dInit] at hd
    by_cases hv : v = a
    · subst hv
      rw [if_pos rfl] at hd
      obtain rfl := Option.some.inj hd
      exact HasWalk.base
    · rw [if_neg hv] at hd
      exact absurd hd (by simp)
  · intro v hv
    simp [dInit] at hv
  · intro u hu
    simp [dInit] at hu
  · intro v hnv
    refine ⟨?_, rfl⟩
    simp only [dInit]
    rw [if_neg]
    omega

/-- The greedy argument: when `du` is (weakly) below every unvisited recorded
distance, `du` is a lower bound on the length of every walk ending at an
unvisited node. -/
theorem dijkstra_greedy {g : Graph} {a n : ℕ} {s : DState}
    (hclosed : ClosedA g.adj n) (hnn : NonnegA g.adj) (ha : a < n)
    (hinv : DInv g a n s) (du : ℚ)
    (hmin : ∀ j, j < n → s.visited j = false → ¬ infLT (s.dist j) (some du)) :
    ∀ v d', HasWalk g a v d' → s.visited v = false → du ≤ d' := by
  intro v d' hw
  induction hw with
  | base =>
    intro hvis
    obtain ⟨da, hda, hda0⟩ := hinv.startLe
    have hm := hmin a ha hvis
    rw [hda] at hm
    have h1 : du ≤ da := by
      by_contra hc
      exact hm (by simpa [infLT] using not_le.mp hc)
    linarith
  | @step v2 d2 e' hw' he' ih =>
    intro hvis'
    by_cases hv : s.visited v2 = true
    · obtain ⟨dv, hdv, hdvd⟩ := hinv.visOpt v2 hv d2 hw'
      have hf := hinv.frontier v2 hv e' he'
      rw [hdv] at hf
      have hm := hmin e'.toIdx (hclosed v2 e' he') hvis'
      cases hdx : s.dist e'.toIdx with
      | none =>
        rw [hdx] at hf
        exact absurd trivial hf
      | some dx =>
        rw [hdx] at hf hm
        have h1 : dx ≤ dv + e'.weight := by
          by_contra hc
          exact hf (by simpa [infAdd, infLT] using not_le.mp hc)
        have h2 : du ≤ dx := by
          by_contra hc
          exact hm (by simpa [infLT] using not_le.mp hc)
        linarith
    · have hv' : s.visited v2 = false := by simpa using hv
      have h1 := ih hv'
      have h2 : 0 ≤ e'.weight := hnn v2 e' he'
      linarith

/-- One non-breaking loop iteration (visit the selected node, relax its edges)
preserves the Dijkstra invariant. -/
theorem dinv_step {g : Graph} {a n : ℕ} {s : DState}
    (hclosed : ClosedA g.adj n) (hnn : NonnegA g.adj) (ha : a < n)
    (hinv : DInv g a n s) (u : ℕ) (dv : JDist)
    (hsel : selectMin n s = (some u, dv)) :
    DInv g a n (relaxAll g u (markVisited u s)) := by
  obtain ⟨hvu, hdu, hdvne, hun, hmin⟩ := selectMin_some n s u dv hsel
  obtain ⟨duv, rfl⟩ : ∃ duv, dv = some duv := by
    cases dv
    · exact absurd rfl hdvne
    · exact ⟨_, rfl⟩
  set s1 := markVisited u s with hs1
  have hdu1 : s1.dist u = some duv := hdu
  have h1v : ∀ v, s1.visited v = if v = u then true else s.visited v := fun v => rfl
  have hspec := relaxAll_spec g u s1 hnn
  unfold RLSpec at hspec
  obtain ⟨r1, r2, r3, r4, r5⟩ := hspec
  set s2 := relaxAll g u s1 with hs2
  have hwalku : HasWalk g a u duv := hinv.attain u duv hdu
  have greedy := dijkstra_greedy hclosed hnn ha hinv duv hmin
  have hs2du : s2.dist u = some duv := r2.trans hdu1
  have hvisd : ∀ v, s.visited v = true → s2.dist v = s.dist v := by
    intro v hv
    rcases r4 v with h | ⟨e, he, hei, heq⟩
    · exact h
    · have heq' : s2.dist v = some (duv + e.weight) := by
        rw [heq, hdu1]
        rfl
      have hwe : HasWalk g a v (duv + e.weight) := hei ▸ HasWalk.step e hwalku he
      obtain ⟨dvv, hdvv, hle⟩ := hinv.visOpt v hv _ hwe
      have hr3 : infLE (s2.dist v) (s.dist v) := r3 v
      rw [heq', hdvv] at hr3
      have h3 : duv + e.weight ≤ dvv := hr3
      rw [heq', hdvv]
      exact congrArg some (le_antisymm h3 hle)
  refine ⟨?_, ?_, ?_, ?_, ?_⟩
  · intro v d hd
    rcases r4 v with h | ⟨e, he, hei, heq⟩
    · have hd' : s1.dist v = some d := by
        rw [← h]
        exact hd
      exact hinv.attain v d hd'
    · have heq' : s2.dist v = some (duv + e.weight) := by
        rw [heq, hdu1]
        rfl
      rw [heq'] at hd
      obtain rfl := Option.some.inj hd
      exact hei ▸ HasWalk.step e hwalku he
  · intro v hv d' hwd'
    have hv1 : s1.visited v = true := by
      rw [← r1]
      exact hv
    by_cases hvu2 : v = u
    · subst hvu2
      exact ⟨duv, hs2du, greedy v d' hwd' hvu⟩
    · have hvold : s.visited v = true := by
        have h2 := h1v v
        rw [if_neg hvu2] at h2
        rw [← h2]
        exact hv1
      obtain ⟨dvv, hdvv, hle⟩ := hinv.visOpt v hvold d' hwd'
      exact ⟨dvv, by rw [hvisd v hvold]; exact hdvv, hle⟩
  · intro v hv e he
    have hv1 : s1.visited v = true := by
      rw [← r1]
      exact hv
    by_cases hvu2 : v = u
    · subst hvu2
      have h5 := r5 e he
      rw [r2]
      exact h5
    · have hvold : s.visited v = true := by
        have h2 := h1v v
        rw [if_neg hvu2] at h2
        rw [← h2]
        exact hv1
      have hf := hinv.frontier v hvold e he
      rw [hvisd v hvold]
      have hr3 : infLE (s2.dist e.toIdx) (s.dist e.toIdx) := r3 e.toIdx
      exact not_infLT_iff.mpr (infLE_trans hr3 (not_infLT_iff.mp hf))
  · obtain ⟨da, hda, h0⟩ := hinv.startLe
    have hr3 : infLE (s2.dist a) (s.dist a) := r3 a
    rw [hda] at hr3
    obtain ⟨da2, hda2, hle2⟩ := infLE_some hr3
    exact ⟨da2, hda2, le_trans hle2 h0⟩
  · intro v hnv
    obtain ⟨hdn, hvn⟩ := hinv.high v hnv
    have hvne : v ≠ u := by omega
    constructor
    · rcases r4 v with h | ⟨e, he, hei, heq⟩
      · rw [h]
        exact hdn
      · exfalso
        have := hclosed u e he
        omega
    · rw [r1, h1v v, if_neg hvne]
      exact hvn

theorem filter_length_le {p pn : ℕ → Bool} (hpp : ∀ i, pn i = true → p i = true) :
    ∀ l : List ℕ, (l.filter pn).length ≤ (l.filter p).length := by
  intro l
  induction l with
  | nil => simp
  | cons x l' ih =>
    rw [List.filter_cons, List.filter_cons]
    by_cases hx : pn x = true
    · rw [if_pos hx, if_pos (hpp x hx)]
      simpa using ih
    · rw [if_neg hx]
      by_cases hx2 : p x = true
      · rw [if_pos hx2]
        exact le_trans ih (by simp)
      · rw [if_neg hx2]
        exact ih

theorem filter_length_lt {u : ℕ} {p pn : ℕ → Bool} (hu : p u = true) (hun : pn u = false)
    (hother : ∀ i, i ≠ u → pn i = p i) :
    ∀ l : List ℕ, u ∈ l → (l.filter pn).length < (l.filter p).length := by
  have hpp : ∀ i, pn i = true → p i = true := by
    intro i hi
    by_cases h : i = u
    · subst h
      rw [hun] at hi
      exact absurd hi (by simp)
    · rw [← hother i h]
      exact hi
  intro l
  induction l with
  | nil => intro h; simp at h
  | cons x l' ih =>
    intro hmem
    rw [List.filter_cons, List.filter_cons]
    by_cases hxu : x = u
    · subst hxu
      rw [if_neg (by rw [hun]; simp), if_pos hu, List.length_cons]
      exact Nat.lt_succ_of_le (filter_length_le hpp l')
    · have hmem' : u ∈ l' := by
        rcases List.mem_cons.mp hmem with h | h
        · exact absurd h.symm hxu
        · exact h
      rw [hother x hxu]
      by_cases hpx : p x = true
      · rw [if_pos hpx, if_pos hpx, List.length_cons, List.length_cons]
        exact Nat.succ_lt_succ (ih hmem')
      · rw [if_neg hpx, if_neg hpx]
        exact ih hmem'

theorem countFalse_step (n u : ℕ) (s s2 : DState) (hun : u < n)
    (hvu : s.visited u = false)
    (hv : ∀ v, s2.visited v = if v = u then true else s.visited v) :
    countFalse n s2 < countFalse n s := by
  unfold countFalse
  apply filter_length_lt (u := u)
  · simp [hvu]
  · simp [hv u]
  · intro i hi
    simp [hv i, hi]
  · exact List.mem_range.mpr hun

theorem dijkstraLoop_final (g : Graph) (a b : ℕ)
    (hclosed : ClosedA g.adj g.nodes.length) (hnn : NonnegA g.adj)
    (ha : a < g.nodes.length) (hb : b < g.nodes.length) :
    ∀ (fuel : ℕ) (s : DState), DInv g a g.nodes.length s →
      countFalse g.nodes.length s < fuel →
      DFinal g a b (dijkstraLoop g b fuel s) := by
  intro fuel
  induction fuel with
  | zero =>
    intro s _ hf
    exact absurd hf (by omega)
  | succ fuel ih =>
    intro s hinv hf
    cases hsel : selectMin g.nodes.length s with
    | mk o dv =>
      cases o with
      | none =>
        have hred : dijkstraLoop g b (fuel + 1) s = s := by
          simp only [dijkstraLoop, hsel]
        rw [hred]
        have hnone := selectMin_none g.nodes.length s (by rw [hsel])
        constructor
        · intro d hd
          refine ⟨hinv.attain b d hd, ?_⟩
          intro d' hw'
          by_cases hvb : s.visited b = true
          · obtain ⟨dvb, hdvb, hle⟩ := hinv.visOpt b hvb d' hw'
            rw [hd] at hdvb
            obtain rfl := Option.some.inj hdvb
            exact hle
          · have hvb' : s.visited b = false := by simpa using hvb
            rw [hnone b hb hvb'] at hd
            exact absurd hd (by simp)
        · intro hd d' hw'
          have haux : ∀ v dd, HasWalk g a v dd →
              (∃ dvv, s.dist v = some dvv) ∧ s.visited v = true := by
            intro v dd hw
            induction hw with
            | base =>
              obtain ⟨da, hda, _⟩ := hinv.startLe
              refine ⟨⟨da, hda⟩, ?_⟩
              by_contra hc
              have hc' : s.visited a = false := by simpa using hc
              rw [hnone a ha hc'] at hda
              exact absurd hda (by simp)
            | @step v2 d2 e' hw2 he2 ih2 =>
              obtain ⟨⟨dv2, hdv2⟩, hvis2⟩ := ih2
              have hf2 := hinv.frontier v2 hvis2 e' he2
              rw [hdv2] at hf2
              have hfin : ∃ dvv, s.dist e'.toIdx = some dvv := by
                cases hdx : s.dist e'.toIdx with
                | none =>
                  rw [hdx] at hf2
                  exact absurd trivial hf2
                | some dx => exact ⟨dx, rfl⟩
              refine ⟨hfin, ?_⟩
              by_contra hc
              have hc' : s.visited e'.toIdx = false := by simpa using hc
              obtain ⟨dvv, hdvv⟩ := hfin
              rw [hnone e'.toIdx (hclosed v2 e' he2) hc'] at hdvv
              exact absurd hdvv (by simp)
          obtain ⟨⟨dvv, hdvv⟩, _⟩ := haux b d' hw'
          rw [hd] at hdvv
          exact absurd hdvv (by simp)
      | some u =>
        by_cases hub : u = b
        · subst hub
          have hred : dijkstraLoop g u (fuel + 1) s = s := by
            simp only [dijkstraLoop, hsel]
            rw [if_pos trivial]
          rw [hred]
          obtain ⟨hvu, hdu, hdvne, hun, hmin⟩ := selectMin_some g.nodes.length s u dv hsel
          obtain ⟨duv, rfl⟩ : ∃ duv, dv = some duv := by
            cases dv
            · exact absurd rfl hdvne
            · exact ⟨_, rfl⟩
          constructor
          · intro d hd
            rw [hdu] at hd
            obtain rfl := Option.some.inj hd
            refine ⟨hinv.attain u _ hdu, ?_⟩
            intro d' hw'
            exact dijkstra_greedy hclosed hnn ha hinv _ hmin u d' hw' hvu
          · intro hd
            rw [hdu] at hd
            exact absurd hd (by simp)
        · have hred : dijkstraLoop g b (fuel + 1) s =
              dijkstraLoop g b fuel (relaxAll g u (markVisited u s)) := by
            simp only [dijkstraLoop, hsel]
            rw [if_neg hub]
          rw [hred]
          obtain ⟨hvu, hdu, hdvne, hun, hmin⟩ := selectMin_some g.nodes.length s u dv hsel
          have hinv2 := dinv_step hclosed hnn ha hinv u dv hsel
          have hcount : countFalse g.nodes.length (relaxAll g u (markVisited u s)) <
              countFalse g.nodes.length s := by
            refine countFalse_step g.nodes.length u s _ hun hvu ?_
            intro v
            rw [(relaxAll_spec g u (markVisited u s) hnn).1]
            rfl
          exact ih _ hinv2 (by omega)

theorem dijkstra_final (g : Graph) (a b : ℕ)
    (hclosed : ClosedA g.adj g.nodes.length) (hnn : NonnegA g.adj)
    (ha : a < g.nodes.length) (hb : b < g.nodes.length) :
    DFinal g a b (dijkstraLoop g b (g.nodes.length + 1) (dInit a)) := by
  apply dijkstraLoop_final g a b hclosed hnn ha hb (g.nodes.length + 1) (dInit a)
    (dinv_init g a _ ha)
  have h1 : countFalse g.nodes.length (dInit a) ≤ g.nodes.length := by
    unfold countFalse
    calc ((List.range g.nodes.length).filter _).length
        ≤ (List.range g.nodes.length).length := List.length_filter_le _ _
      _ = g.nodes.length := List.length_range _
  omega

/-- The recorded end-to-end distance is symmetric in start and end whenever the
adjacency is symmetric, closed and nonnegatively weighted. -/
theorem dijkstra_symm (g : Graph) (a b : ℕ)
    (hsym : SymA g.adj) (hclosed : ClosedA g.adj g.nodes.length) (hnn : NonnegA g.adj)
    (ha : a < g.nodes.length) (hb : b < g.nodes.length) :
    Option.map Prod.fst (dijkstraShortestPath g a b) =
      Option.map Prod.fst (dijkstraShortestPath g b a) := by
  obtain ⟨fab1, fab2⟩ := dijkstra_final g a b hclosed hnn ha hb
  obtain ⟨fba1, fba2⟩ := dijkstra_final g b a hclosed hnn hb ha
  simp only [dijkstraShortestPath]
  cases hAB : (dijkstraLoop g b (g.nodes.length + 1) (dInit a)).dist b with
  | none =>
    cases hBA : (dijkstraLoop g a (g.nodes.length + 1) (dInit b)).dist a with
    | none => rfl
    | some dq =>
      exfalso
      obtain ⟨hw', _⟩ := fba1 dq hBA
      exact fab2 hAB dq (walk_reverse hsym hw')
  | some d =>
    cases hBA : (dijkstraLoop g a (g.nodes.length + 1) (dInit b)).dist a with
    | none =>
      exfalso
      obtain ⟨hw, _⟩ := fab1 d hAB
      exact fba2 hBA d (walk_reverse hsym hw)
    | some dq =>
      obtain ⟨hwAB, hminAB⟩ := fab1 d hAB
      obtain ⟨hwBA, hminBA⟩ := fba1 dq hBA
      have h1 : d ≤ dq := hminAB dq (walk_reverse hsym hwBA)
      have h2 : dq ≤ d := hminBA d (walk_reverse hsym hwAB)
      rw [le_antisymm h1 h2]
      simp

theorem selectMin_init (n a : ℕ) (ha : a < n) : selectMin n (dInit a) = (some a, some 0) := by
  have hstep_skip : ∀ (acc : Option ℕ × JDist) (i : ℕ), i ≠ a →
      (if (dInit a).visited i = false ∧ infLT ((dInit a).dist i) acc.2
        then (some i, (dInit a).dist i) else acc) = acc := by
    intro acc i hi
    rw [if_neg]
    intro hcon
    have hd : (dInit a).dist i = none := by simp [dInit, hi]
    rw [hd] at hcon
    exact hcon.2
  have hfix : ∀ l : List ℕ, l.foldl (fun acc i =>
      if (dInit a).visited i = false ∧ infLT ((dInit a).dist i) acc.2
        then (some i, (dInit a).dist i) else acc) (some a, some 0) = (some a, some 0) := by
    intro l
    apply foldl_fixed
    intro i _
    by_cases hi : i = a
    · subst hi
      rw [if_neg]
      intro hcon
      have h0 : (dInit i).dist i = some 0 := by simp [dInit]
      rw [h0] at hcon
      exact absurd hcon.2 (by simp [infLT])
    · exact hstep_skip _ i hi
  have hmain : ∀ l : List ℕ, l.foldl (fun acc i =>
      if (dInit a).visited i = false ∧ infLT ((dInit a).dist i) acc.2
        then (some i, (dInit a).dist i) else acc) (none, none) =
      if a ∈ l then (some a, some 0) else (none, none) := by
    intro l
    induction l with
    | nil => simp
    | cons i l' ih =>
      rw [List.foldl_cons]
      by_cases hi : i = a
      · subst hi
        have hfire : (if (dInit i).visited i = false ∧
            infLT ((dInit i).dist i) ((none : Option ℕ), (none : JDist)).2
            then (some i, (dInit i).dist i)
            else ((none : Option ℕ), (none : JDist))) = (some i, some 0) := by
          rw [if_pos ⟨rfl, by simp [dInit, infLT]⟩]
          simp [dInit]
        rw [hfire, hfix l', if_pos (List.mem_cons_self i l')]
      · rw [hstep_skip _ i hi, ih]
        by_cases hm : a ∈ l'
        · rw [if_pos hm, if_pos (List.mem_cons_of_mem _ hm)]
        · rw [if_neg hm, if_neg (by
            intro hc
            rcases List.mem_cons.mp hc with h | h
            · exact hi h.symm
            · exact hm h)]
  have hres := hmain (List.range n)
  rw [if_pos (List.mem_range.mpr ha)] at hres
  exact hres

/-- Start equal to end: the loop breaks on the very first selection, leaving
`dist[a] = 0` and an empty predecessor chain, so the result is the single-node
path `[a]` of distance `0`. -/
theorem dijkstra_self (g : Graph) (a : ℕ) (ha : a < g.nodes.length) :
    dijkstraShortestPath g a a = some (0, [a]) := by
  have hsel := selectMin_init g.nodes.length a ha
  simp only [dijkstraShortestPath]
  have hloop : dijkstraLoop g a (g.nodes.length + 1) (dInit a) = dInit a := by
    simp only [dijkstraLoop, hsel]
    rw [if_pos trivial]
  rw [hloop]
  have hd : (dInit a).dist a = some 0 := by simp [dInit]
  rw [hd]
  simp [walkPrev, dInit]

theorem addWalkway_nonneg (w : DistFn) (st : Graph) (coords : List Point)
    (hg : GInv st) (hn : NonnegA st.adj) (hw : ∀ p q : Point, 0 ≤ w p q) :
    NonnegA (addWalkway w st coords).adj := by
  by_cases hlen : coords.length < 2
  · rw [addWalkway, if_pos hlen]
    exact hn
  · simp only [addWalkway, if_neg hlen]
    have hic : ICSpec st [] coords (indexCoords st coords) :=
      icFold_spec coords st [] hg.wf (by simp)
    unfold ICSpec at hic
    obtain ⟨icWF, _, _, icGetD, icBound, _, _, _⟩ := hic
    have hlzip : ∀ x ∈ (indexCoords st coords).2.zip coords,
        x.1 < (indexCoords st coords).1.nodes.length :=
      fun x hx => icBound x.1 (List.of_mem_zip hx).1
    have hae := addEdges_spec w ((indexCoords st coords).2.zip coords)
      (indexCoords st coords).1 icWF hlzip
    unfold AESpec at hae
    refine hae.2.2.2.2.2.2.2.1 hw ?_
    intro u e he
    refine hn u e ?_
    rw [← icGetD]
    exact he

theorem connectPair_nonneg (wm : DistFn) (tol : ℚ) (st : Graph) (i j : ℕ)
    (hg : GInv st) (hn : NonnegA st.adj) (hwm : ∀ p q : Point, 0 ≤ wm p q)
    (hi : i < st.nodes.length) (hj : j < st.nodes.length) :
    NonnegA (connectPair wm tol st i j).adj := by
  simp only [connectPair]
  split_ifs with hd
  · exact nonnegA_pushPair _ _ _ _ (by rw [hg.wf]; exact hi) (by rw [hg.wf]; exact hj)
      (div_nonneg (hwm _ _) (by norm_num)) hn
  · exact hn

/-- With nonnegative metrics every edge weight of the built graph is
nonnegative. -/
theorem nonnegA_build (w wm : DistFn) (raw : List RawLine)
    (hw : ∀ p q : Point, 0 ≤ w p q) (hwm : ∀ p q : Point, 0 ≤ wm p q) :
    NonnegA (buildWalkwayGraph w wm raw).adj := by
  simp only [buildWalkwayGraph]
  set st0 := (refineAll (extractWalkways raw)).foldl (addWalkway w) ⟨[], [], []⟩ with hst0
  have hfold : GInv st0 ∧ NonnegA st0.adj :=
    foldl_inv (P := fun g => GInv g ∧ NonnegA g.adj)
      ⟨ginv_empty, by intro u e he; simp [List.getD] at he⟩
      (fun coords _ st hst =>
        ⟨addWalkway_ginv w st coords hst.1, addWalkway_nonneg w st coords hst.1 hst.2 hw⟩)
  simp only [connectNearbyNodes]
  refine (foldl_inv (P := fun g => (GInv g ∧ NonnegA g.adj) ∧ g.nodes = st0.nodes)
    ⟨hfold, rfl⟩ ?_).1.2
  intro i hi b hb
  refine foldl_inv (P := fun g => (GInv g ∧ NonnegA g.adj) ∧ g.nodes = st0.nodes) hb ?_
  intro j hj b2 hb2
  rw [List.mem_range] at hi
  rw [List.mem_range'_1] at hj
  have hcp := connectPair_ginv wm 2 b2 i j hb2.1.1 (by rw [hb2.2]; omega) (by rw [hb2.2]; omega)
  refine ⟨⟨hcp.1, ?_⟩, by rw [hcp.2, hb2.2]⟩
  exact connectPair_nonneg wm 2 b2 i j hb2.1.1 hb2.1.2 hwm
    (by rw [hb2.2]; omega) (by rw [hb2.2]; omega)

/-- C5: for every built graph (any raw input, any nonnegative metrics) and
every pair of valid node indices `a`, `b`, the shortest-path distance is
symmetric — the distance component of `dijkstraShortestPath g a b` equals that
of `dijkstraShortestPath g b a`, including the unreachable (`null`) case — and
when `a = b` the result is the single-node path `[a]` of distance `0`. -/
theorem shortestPath_symm_and_self (w wm : DistFn) (raw : List RawLine)
    (hw : ∀ p q : Point, 0 ≤ w p q) (hwm : ∀ p q : Point, 0 ≤ wm p q)
    (a b : ℕ) (ha : a < (buildWalkwayGraph w wm raw).nodes.length)
    (hb : b < (buildWalkwayGraph w wm raw).nodes.length) :
    Option.map Prod.fst (dijkstraShortestPath (buildWalkwayGraph w wm raw) a b) =
      Option.map Prod.fst (dijkstraShortestPath (buildWalkwayGraph w wm raw) b a) ∧
    dijkstraShortestPath (buildWalkwayGraph w wm raw) a a = some (0, [a]) :=
  ⟨dijkstra_symm _ a b (ginv_build w wm raw).sym (ginv_build w wm raw).closed
      (nonnegA_build w wm raw hw hwm) ha hb,
    dijkstra_self _ a ha⟩

theorem shortestPath_symm_and_self_witness :
    Option.map Prod.fst (dijkstraShortestPath (buildWalkwayGraph wDemo wmDemo crossFC) 0 2) =
      Option.map Prod.fst (dijkstraShortestPath (buildWalkwayGraph wDemo wmDemo crossFC) 2 0) ∧
    dijkstraShortestPath (buildWalkwayGraph wDemo wmDemo crossFC) 0 0 = some (0, [0]) :=
  shortestPath_symm_and_self wDemo wmDemo crossFC
    (fun p q => by unfold wDemo; positivity)
    (fun p q => by unfold wmDemo; split_ifs <;> norm_num)
    0 2
    (by
      rw [crossFC_build wDemo wmDemo (fun p q hpq => by norm_num [wmDemo, hpq])]
      norm_num [gCross])
    (by
      rw [crossFC_build wDemo wmDemo (fun p q hpq => by norm_num [wmDemo, hpq])]
      norm_num [gCross])

end CRMap
